import Mathlib

/-!
Verification of the Overlay Resolution and State-Machine Transition Engine
of the safety-net-apis mock server.

The overlay resolver (`resolvePath`, `setAtPath`, `removeAtPath`,
`renameAtPath`, `checkPathExists`, `rootExists`, `applyOverlay`) is embedded
twice, faithfully to the JavaScript source:

* a tree-level (value-semantics) embedding, where a document is a JSON value
  and each mutating operation is state-passing (it returns the updated
  document); this view is adequate for all claims about resulting values,
  warnings and thrown exceptions;
* a heap-level (reference-semantics) embedding, where JavaScript objects are
  nodes in an addressed store and object-typed values are references; this
  view is needed for claims about observable mutation and aliasing.

The JavaScript source is an ES module and therefore runs in strict mode:
reading a property of `null`/`undefined` throws a `TypeError`, and so does
assigning a property to a primitive. Fallible operations are embedded as
`Except JsErr`.

Modelling notes (JSON-like documents): property access is modelled for plain
data objects and array index positions. Exotic JavaScript properties
(prototype-inherited keys such as `constructor`, the `length` property of
arrays and strings) and non-JSON values (functions, `undefined` stored as a
property value, `NaN`) are outside the model: the documents this code
processes are parsed JSON/YAML trees, which never contain them.
-/

/-- Error raised by an embedded operation. `typeError` models a JavaScript
`TypeError` thrown at run time; `notModelled` marks the few array-write edge
cases (writing past the end of an array, renaming an array index) that the
embedding does not cover, so that no theorem silently treats them as defined
behaviour. -/
inductive JsErr where
  | typeError (msg : String)
  | notModelled (msg : String)
deriving DecidableEq, Repr

/-- A JavaScript JSON-like value: the data model of overlay documents.
Numbers carry an `Int` payload: the code under verification never computes
with numbers, it only moves and compares them, and the claims involve no
fractional literals. -/
inductive JsVal where
  | null
  | bool (b : Bool)
  | num (n : Int)
  | str (s : String)
  | arr (elems : List JsVal)
  | obj (fields : List (String × JsVal))
deriving Inhabited

mutual

/-- Structural (deep) equality test on JSON values. -/
def JsVal.beq : JsVal → JsVal → Bool
  | .null, .null => true
  | .bool a, .bool b => a == b
  | .num a, .num b => a == b
  | .str a, .str b => a == b
  | .arr a, .arr b => JsVal.beqList a b
  | .obj a, .obj b => JsVal.beqFields a b
  | _, _ => false

/-- Elementwise `JsVal.beq` on lists of values. -/
def JsVal.beqList : List JsVal → List JsVal → Bool
  | [], [] => true
  | a :: as, b :: bs => JsVal.beq a b && JsVal.beqList as bs
  | _, _ => false

/-- Elementwise `JsVal.beq` on association lists of fields. -/
def JsVal.beqFields : List (String × JsVal) → List (String × JsVal) → Bool
  | [], [] => true
  | (k, v) :: as, (k', v') :: bs => k == k' && JsVal.beq v v' && JsVal.beqFields as bs
  | _, _ => false

end

mutual

theorem JsVal.eq_of_beq : ∀ {a b : JsVal}, JsVal.beq a b = true → a = b
  | .null, .null, _ => rfl
  | .bool _, .bool _, h => by
      simp only [JsVal.beq, beq_iff_eq] at h; rw [h]
  | .num _, .num _, h => by
      simp only [JsVal.beq, beq_iff_eq] at h; rw [h]
  | .str _, .str _, h => by
      simp only [JsVal.beq, beq_iff_eq] at h; rw [h]
  | .arr a, .arr b, h => by
      simp only [JsVal.beq] at h
      rw [JsVal.eqList_of_beq h]
  | .obj a, .obj b, h => by
      simp only [JsVal.beq] at h
      rw [JsVal.eqFields_of_beq h]

theorem JsVal.eqList_of_beq : ∀ {a b : List JsVal}, JsVal.beqList a b = true → a = b
  | [], [], _ => rfl
  | a :: as, b :: bs, h => by
      simp only [JsVal.beqList, Bool.and_eq_true] at h
      rw [JsVal.eq_of_beq h.1, JsVal.eqList_of_beq h.2]

theorem JsVal.eqFields_of_beq :
    ∀ {a b : List (String × JsVal)}, JsVal.beqFields a b = true → a = b
  | [], [], _ => rfl
  | (k, v) :: as, (k', v') :: bs, h => by
      simp only [JsVal.beqFields, Bool.and_eq_true, beq_iff_eq] at h
      rw [h.1.1, JsVal.eq_of_beq h.1.2, JsVal.eqFields_of_beq h.2]

end

mutual

theorem JsVal.beq_refl : ∀ (a : JsVal), JsVal.beq a a = true
  | .null => rfl
  | .bool b => by simp [JsVal.beq]
  | .num n => by simp [JsVal.beq]
  | .str s => by simp [JsVal.beq]
  | .arr es => by simp only [JsVal.beq]; exact JsVal.beqList_refl es
  | .obj fs => by simp only [JsVal.beq]; exact JsVal.beqFields_refl fs

theorem JsVal.beqList_refl : ∀ (a : List JsVal), JsVal.beqList a a = true
  | [] => rfl
  | a :: as => by
      simp only [JsVal.beqList, Bool.and_eq_true]
      exact ⟨JsVal.beq_refl a, JsVal.beqList_refl as⟩

theorem JsVal.beqFields_refl : ∀ (a : List (String × JsVal)), JsVal.beqFields a a = true
  | [] => rfl
  | (k, v) :: as => by
      simp only [JsVal.beqFields, Bool.and_eq_true, beq_self_eq_true]
      exact ⟨⟨trivial, JsVal.beq_refl v⟩, JsVal.beqFields_refl as⟩

end

instance : DecidableEq JsVal := fun a b =>
  if h : JsVal.beq a b = true then
    isTrue (JsVal.eq_of_beq h)
  else
    isFalse (fun he => h (he ▸ JsVal.beq_refl a))

instance {ε α : Type} [DecidableEq ε] [DecidableEq α] : DecidableEq (Except ε α) := fun a b =>
  match a, b with
  | .ok x, .ok y =>
      if h : x = y then isTrue (by rw [h]) else isFalse (by intro he; cases he; exact h rfl)
  | .error x, .error y =>
      if h : x = y then isTrue (by rw [h]) else isFalse (by intro he; cases he; exact h rfl)
  | .ok _, .error _ => isFalse (by intro he; cases he)
  | .error _, .ok _ => isFalse (by intro he; cases he)

/-! ## Association-list primitives for JavaScript objects

A JavaScript object is an insertion-ordered map with unique string keys.
`getF` is property read (`o[k]`, `undefined` becomes `none`), `putF` is
property assignment (`o[k] = v`: overwriting keeps the key's position, a new
key is appended), `delF` is `delete o[k]`. -/

/-- Property read on an object's field list: the value at the first
occurrence of the key, or `none` (JavaScript `undefined`). Polymorphic in
the value type so that both the tree view and the heap view share it. -/
def getF {α : Type} : List (String × α) → String → Option α
  | [], _ => none
  | (k', v) :: t, k => if k' = k then some v else getF t k

/-- Property assignment on an object's field list: replaces the value at the
first occurrence of the key in place, or appends a new entry. -/
def putF {α : Type} : List (String × α) → String → α → List (String × α)
  | [], k, v => [(k, v)]
  | (k', v') :: t, k, v => if k' = k then (k, v) :: t else (k', v') :: putF t k v

/-- Property deletion on an object's field list: removes the first occurrence
of the key. -/
def delF {α : Type} : List (String × α) → String → List (String × α)
  | [], _ => []
  | (k', v') :: t, k => if k' = k then t else (k', v') :: delF t k

/-- Decimal digit test for array index strings. -/
def isDigitChar (c : Char) : Bool := '0' ≤ c && c ≤ '9'

/-- Numeric value of a digit string. -/
def digitsVal (ds : List Char) : Nat :=
  ds.foldl (fun a c => a * 10 + (c.toNat - 48)) 0

/-- Array index lookup: JavaScript `a[part]` hits an element only when `part`
is the canonical decimal form of an index below the length (all digits, no
leading zero except for `"0"` itself). -/
def parseIndex (len : Nat) (part : String) : Option Nat :=
  match part.data with
  | [] => none
  | d :: ds =>
      if isDigitChar d && ds.all isDigitChar && (decide (d ≠ '0') || decide (ds = [])) then
        if digitsVal (d :: ds) < len then some (digitsVal (d :: ds)) else none
      else none

/-! ## Path handling

A path is a dotted string, optionally prefixed `$.`; both forms are
normalized before use (`path.startsWith('$.') ? path.slice(2) : path`,
then `split('.')`). -/

/-- Strip the optional `$.` prefix from a path
(`path.startsWith('$.') ? path.slice(2) : path`), implemented on the
character list so that proofs can evaluate it. -/
def cleanPath (path : String) : String :=
  match path.data with
  | '$' :: '.' :: rest => String.mk rest
  | _ => path

/-- Split a character list at the dots, as `String.prototype.split('.')`
does: the result is always nonempty, the empty string splits to `[""]`, and
leading/trailing/adjacent dots yield empty segments. -/
def splitDots : List Char → List (List Char)
  | [] => [[]]
  | c :: cs =>
      match splitDots cs with
      | [] => [[c]]
      | h :: t => if c = '.' then [] :: h :: t else (c :: h) :: t

/-- Split a normalized path into its dot-separated segments. -/
def pathParts (path : String) : List String :=
  (splitDots (cleanPath path).data).map String.mk

/-! ## resolvePath -/

/-- Traversal loop of `resolvePath`: returns `none` (JavaScript `undefined`)
the moment the current value is `undefined` or `null`, and otherwise steps
into the named property; primitives have no own properties, so stepping into
them yields `undefined`. -/
def resolveParts : JsVal → List String → Option JsVal
  | cur, [] => some cur
  | .null, _ :: _ => none
  | .obj fs, p :: rest =>
      match getF fs p with
      | some v => resolveParts v rest
      | none => none
  | .arr es, p :: rest =>
      match parseIndex es.length p with
      | some i => resolveParts (es.getD i .null) rest
      | none => none
  | _, _ :: _ => none

/-- Apply a JSONPath-like target to get the value in an object, or `none`
(`undefined`) if not found. -/
def resolvePath (obj : JsVal) (path : String) : Option JsVal :=
  resolveParts obj (pathParts path)

/-! ## setAtPath -/

/-- The JavaScript test `typeof v === 'object' && !Array.isArray(v)`:
true for plain objects and for `null` (because `typeof null === 'object'`),
false for arrays, strings, numbers and booleans. -/
def isMergeSide : JsVal → Bool
  | .null => true
  | .obj _ => true
  | _ => false

/-- Fields contributed by one side of an object spread `{...v}`: a plain
object spreads its fields and `null` spreads nothing. Only those two shapes
reach the merge branch of `setAtPath`. -/
def spreadVal : JsVal → List (String × JsVal)
  | .obj fs => fs
  | _ => []

/-- The object spread `{...xs, ...ys}`: `xs`'s keys keep their positions with
`ys`'s values winning on conflict, then `ys`'s new keys follow in order. -/
def spreadMerge {α : Type} (xs ys : List (String × α)) : List (String × α) :=
  xs.map (fun kv => (kv.1, (getF ys kv.1).getD kv.2)) ++
    ys.filter (fun kv => (getF xs kv.1).isNone)

/-- The merge-or-replace decision at the leaf of `setAtPath`: merge exactly
when the new value and the current value at the path both pass
`typeof x === 'object' && !Array.isArray(x)`; an absent current value
(`undefined`) never merges. -/
def mergeCond (curLeaf : Option JsVal) (value : JsVal) : Bool :=
  isMergeSide value && (match curLeaf with
    | some c => isMergeSide c
    | none => false)

/-- The value stored at the leaf by `setAtPath`: the spread-merge
`{...current[lastPart], ...value}` when `mergeCond` holds, otherwise
`value` itself. -/
def leafValue (curLeaf : Option JsVal) (value : JsVal) : JsVal :=
  if mergeCond curLeaf value then
    .obj (spreadMerge (spreadVal (curLeaf.getD .null)) (spreadVal value))
  else value

/-- Leaf step of `setAtPath` on the parent value reached by the traversal.
On a plain object it stores `leafValue`. Reading a property of `null` throws,
and so does assigning a property to a primitive (strict mode). Writing past
the end of an array is not modelled. -/
def setLeaf : JsVal → String → JsVal → Except JsErr JsVal
  | .obj fs, lastPart, value =>
      .ok (.obj (putF fs lastPart (leafValue (getF fs lastPart) value)))
  | .arr es, lastPart, value =>
      match parseIndex es.length lastPart with
      | some i => .ok (.arr (es.set i (leafValue (some (es.getD i .null)) value)))
      | none => .error (.notModelled "array extension write")
  | .null, _, _ => .error (.typeError "Cannot read properties of null")
  | _, _, _ => .error (.typeError "Cannot create property on a primitive value")

/-- Traversal-and-write loop of `setAtPath`: steps through the intermediate
segments, creating `{}` for a missing segment (`current[part] === undefined`),
then performs the leaf step; the updated child is written back into its
parent, which models in-place mutation in state-passing style. A `null`
intermediate throws on the property read; a primitive intermediate throws on
the `current[part] = {}` assignment (strict mode). -/
def setParts : JsVal → List String → String → JsVal → Except JsErr JsVal
  | cur, [], lastPart, value => setLeaf cur lastPart value
  | .obj fs, p :: rest, lastPart, value =>
      (setParts ((getF fs p).getD (.obj [])) rest lastPart value).map
        (fun child => .obj (putF fs p child))
  | .arr es, p :: rest, lastPart, value =>
      match parseIndex es.length p with
      | some i =>
          (setParts (es.getD i .null) rest lastPart value).map
            (fun child => .arr (es.set i child))
      | none => .error (.notModelled "array extension write")
  | .null, _ :: _, _, _ => .error (.typeError "Cannot read properties of null")
  | _, _ :: _, _, _ => .error (.typeError "Cannot create property on a primitive value")

/-- Set a value at a JSONPath-like location (state-passing rendering of the
mutating JavaScript function). The last segment is the leaf key; for objects
the new value is merged rather than replaced, per `leafValue`. -/
def setAtPath (obj : JsVal) (path : String) (value : JsVal) : Except JsErr JsVal :=
  let parts := pathParts path
  setParts obj parts.dropLast (parts.getLastD "") value

/-! ## removeAtPath -/

/-- Traversal-and-delete loop of `removeAtPath`: a missing intermediate
segment (`current[part] === undefined`) returns silently; a present segment
is stepped into. Reading a property of `null` throws; a primitive
intermediate reads as `undefined` and therefore also returns silently. At
the end the leaf key is deleted; `delete` on a missing key of a primitive is
a silent no-op, but `delete null[k]` throws. -/
def removeParts : JsVal → List String → String → Except JsErr JsVal
  | .obj fs, [], lastPart => .ok (.obj (delF fs lastPart))
  | .arr es, [], lastPart =>
      match parseIndex es.length lastPart with
      | some _ => .error (.notModelled "array element delete")
      | none => .ok (.arr es)
  | .null, [], _ => .error (.typeError "Cannot convert null to object")
  | cur, [], _ => .ok cur
  | .obj fs, p :: rest, lastPart =>
      match getF fs p with
      | some child => (removeParts child rest lastPart).map
          (fun c => .obj (putF fs p c))
      | none => .ok (.obj fs)
  | .arr es, p :: rest, lastPart =>
      match parseIndex es.length p with
      | some i => (removeParts (es.getD i .null) rest lastPart).map
          (fun c => .arr (es.set i c))
      | none => .ok (.arr es)
  | .null, _ :: _, _ => .error (.typeError "Cannot read properties of null")
  | cur, _ :: _, _ => .ok cur

/-- Remove a value at a JSONPath-like location (state-passing rendering of
the mutating JavaScript function). -/
def removeAtPath (obj : JsVal) (path : String) : Except JsErr JsVal :=
  let parts := pathParts path
  removeParts obj parts.dropLast (parts.getLastD "")

/-! ## renameAtPath -/

/-- The JavaScript `hasOwnProperty` check, restricted to JSON data: plain
objects own their keys, arrays own their in-range index strings, primitives
and `null` own nothing (calling it on `null` would throw, but every call
site checks for `null` first). -/
def hasOwn : JsVal → String → Bool
  | .obj fs, k => (getF fs k).isSome
  | .arr es, k => (parseIndex es.length k).isSome
  | _, _ => false

/-- Traversal-and-rename loop of `renameAtPath`: a missing intermediate
segment returns `false` without mutating; at the end, if the parent does not
own the old key it returns `false`, otherwise the value is copied to the new
key (`current[newName] = current[oldName]`) and the old key deleted, and it
returns `true`. `hasOwnProperty` on a `null` parent throws. -/
def renameParts : JsVal → List String → String → String → Except JsErr (Bool × JsVal)
  | .obj fs, [], oldName, newName =>
      match getF fs oldName with
      | some v => .ok (true, .obj (delF (putF fs newName v) oldName))
      | none => .ok (false, .obj fs)
  | .arr es, [], oldName, _newName =>
      match parseIndex es.length oldName with
      | some _ => .error (.notModelled "array element rename")
      | none =>
          -- the array does not own `oldName`, so the rename fails before
          -- any write; `newName` is never touched
          .ok (false, .arr es)
  | .null, [], _, _ => .error (.typeError "Cannot read properties of null")
  | cur, [], _, _ => .ok (false, cur)
  | .obj fs, p :: rest, oldName, newName =>
      match getF fs p with
      | some child => (renameParts child rest oldName newName).map
          (fun bc => (bc.1, .obj (putF fs p bc.2)))
      | none => .ok (false, .obj fs)
  | .arr es, p :: rest, oldName, newName =>
      match parseIndex es.length p with
      | some i => (renameParts (es.getD i .null) rest oldName newName).map
          (fun bc => (bc.1, .arr (es.set i bc.2)))
      | none => .ok (false, .arr es)
  | .null, _ :: _, _, _ => .error (.typeError "Cannot read properties of null")
  | cur, _ :: _, _, _ => .ok (false, cur)

/-- Rename a property at a JSONPath-like location; the `Bool` is the
JavaScript return value (`true` iff the rename happened). -/
def renameAtPath (obj : JsVal) (path : String) (newName : String) :
    Except JsErr (Bool × JsVal) :=
  let parts := pathParts path
  renameParts obj parts.dropLast (parts.getLastD "") newName

/-! ## checkPathExists and rootExists -/

/-- Result of `checkPathExists`. -/
structure PathCheck where
  rootExists : Bool
  fullPathExists : Bool
  missingAt : Option String
deriving DecidableEq, Repr

/-- Loop of `checkPathExists` over the remaining segments: stops with the
dotted prefix walked so far (including the failing segment) as `missingAt`
when the current value is `undefined`/`null` or does not own the segment. -/
def checkParts : JsVal → List String → List String → PathCheck
  | _, [], _ => ⟨true, true, none⟩
  | .null, p :: _, seen =>
      ⟨true, false, some (String.intercalate "." (seen ++ [p]))⟩
  | cur, p :: rest, seen =>
      if hasOwn cur p then
        checkParts (match cur with
          | .obj fs => (getF fs p).getD .null
          | .arr es => (parseIndex es.length p).elim .null (fun i => es.getD i .null)
          | _ => .null) rest (seen ++ [p])
      else ⟨true, false, some (String.intercalate "." (seen ++ [p]))⟩

/-- Check if a path exists in an object: `rootExists` reflects only the first
segment; `missingAt` is the dotted prefix at which traversal first failed. -/
def checkPathExists (obj : JsVal) (path : String) : PathCheck :=
  let parts := pathParts path
  match parts with
  | [] => ⟨false, false, none⟩
  | root :: _ =>
      if hasOwn obj root then checkParts obj parts []
      else ⟨false, false, none⟩

/-- Simple check that just the first path segment is a key of the document. -/
def rootExists (obj : JsVal) (path : String) : Bool :=
  match pathParts path with
  | [] => false
  | root :: _ => hasOwn obj root

/-! ## applyOverlay -/

/-- One overlay action `{ target, update, remove, rename, description }`.
Absent JavaScript properties are `none`; `remove` keeps its raw value
because the source compares it against `true` with `===`. -/
structure OverlayAction where
  target : Option String := none
  update : Option JsVal := none
  remove : Option JsVal := none
  rename : Option String := none
  description : Option String := none

/-- An overlay document; a missing or non-array `actions` is `none`. -/
structure Overlay where
  actions : Option (List OverlayAction) := none

/-- The JavaScript truthiness test `!target` for an optional string target:
true when the property is absent or the empty string. -/
def targetFalsy : Option String → Bool
  | none => true
  | some s => s = ""

/-- The `action.description || target` fallback: a missing or empty
description falls back to the raw target. -/
def descOr (description : Option String) (target : String) : String :=
  match description with
  | some d => if d = "" then target else d
  | none => target

/-- The `typeof update === 'object'` half of the `isAddingProperties` test:
true for objects, arrays and `null`. -/
def isTypeofObject : JsVal → Bool
  | .null => true
  | .obj _ => true
  | .arr _ => true
  | _ => false

/-- The general warning pushed when an action's full target path does not
exist. -/
def missingWarning (missingAt : String) (actionDesc : String) : String :=
  s!"Target $.{missingAt} does not exist in base schema (action: \"{actionDesc}\")"

/-- The distinct warning pushed when a rename action fails although the
checker reported the full path as existing. -/
def renameFailedWarning (target : String) (actionDesc : String) : String :=
  s!"Rename failed for target {target} (action: \"{actionDesc}\")"

/-- Processing of a single overlay action against the working document,
threading the accumulated warnings. Console output (gated by the `silent`
option in the source) has no effect on the returned document or warnings and
is not modelled. -/
def applyAction (state : JsVal × List String) (action : OverlayAction) :
    Except JsErr (JsVal × List String) :=
  let result := state.1
  let warnings := state.2
  if targetFalsy action.target then .ok (result, warnings)
  else
    let target := action.target.getD ""
    if rootExists result target = false then .ok (result, warnings)
    else
      let pathCheck := checkPathExists result target
      let isAddingProperties :=
        ".properties".data.isSuffixOf target.data &&
          (match action.update with
            | some v => isTypeofObject v
            | none => false)
      let actionDesc := descOr action.description target
      let warnings :=
        if pathCheck.fullPathExists = false && isAddingProperties = false then
          warnings ++ [missingWarning (pathCheck.missingAt.getD "") actionDesc]
        else warnings
      if action.remove = some (.bool true) then
        (removeAtPath result target).map (fun r => (r, warnings))
      else
        match action.rename with
        | some newName =>
            (renameAtPath result target newName).map (fun br =>
              let warnings :=
                if br.1 = false && pathCheck.fullPathExists then
                  warnings ++ [renameFailedWarning target actionDesc]
                else warnings
              (br.2, warnings))
        | none =>
            match action.update with
            | some v => (setAtPath result target v).map (fun r => (r, warnings))
            | none => .ok (result, warnings)

/-- Apply overlay actions to a spec. In this value-semantics view the
defensive deep clone `JSON.parse(JSON.stringify(spec))` is the identity on
JSON-representable values, so the fold starts from `spec` itself; the
heap-level embedding below models the clone's reference behaviour. A thrown
`TypeError` inside an action propagates out of the whole call. -/
def applyOverlay (spec : JsVal) (overlay : Overlay) :
    Except JsErr (JsVal × List String) :=
  match overlay.actions with
  | none => .ok (spec, [])
  | some actions => actions.foldlM applyAction (spec, [])

/-! ## Transition engine

The file `packages/mock-server/src/state-machine-engine.js` itself is not
part of the provided sources; only its unit tests and its caller (the
transition handler) are. The definitions in this section are therefore
modelled from the specification's description of the engine (section 4.3),
which the unit tests corroborate. -/

/-- A primitive (literal) value as used in guard values, effect values and
caller attributes: the specification types these as literals,
`'$caller.<attr>'` templates, or `null`. -/
inductive Prim where
  | null
  | bool (b : Bool)
  | num (n : Int)
  | str (s : String)
deriving DecidableEq, Repr

/-- Injection of primitives into the JSON value model. -/
def primToJs : Prim → JsVal
  | .null => .null
  | .bool b => .bool b
  | .num n => .num n
  | .str s => .str s

/-- Caller context `{ caller?: { id, name?, ... } }`: an optional caller with
string-keyed primitive attributes. -/
structure CallerContext where
  caller : Option (List (String × Prim)) := none

/-- Attribute lookup `context.caller?.[attr]`, `none` when the caller or the
attribute is absent. -/
def callerAttr (ctx : CallerContext) (attr : String) : Option Prim :=
  match ctx.caller with
  | none => none
  | some attrs =>
      match attrs.find? (fun kv => kv.1 = attr) with
      | some kv => some kv.2
      | none => none

/-- Modelled from the spec: recognition of the template form
`$caller.<attr>` in `resolveValue` — the string must start with `$caller.`
and the remainder must be a single nonempty attribute name (no further
dots); any other string "should be treated as an opaque literal". -/
def parseCallerTemplate (s : String) : Option String :=
  match s.data with
  | '$' :: 'c' :: 'a' :: 'l' :: 'l' :: 'e' :: 'r' :: '.' :: rest =>
      if decide (rest ≠ []) && rest.all (fun c => decide (c ≠ '.')) then
        some (String.mk rest)
      else none
  | _ => none

/-- Modelled from the spec: `resolveValue(raw, context)` — literals pass
through unchanged, `null`/`undefined` (an absent raw value) become `null`,
and a `$caller.<attr>` template string is replaced by
`context.caller?.[attr]`, defaulting to `null` when the caller or attribute
is absent. -/
def resolveValue (raw : Option Prim) (ctx : CallerContext) : Prim :=
  match raw with
  | none => .null
  | some .null => .null
  | some (.str s) =>
      match parseCallerTemplate s with
      | some attr => (callerAttr ctx attr).getD .null
      | none => .str s
  | some p => p

/-- A resource record: string field names mapped to JSON values, reusing the
object field-list primitives. -/
abbrev SMResource := List (String × JsVal)

/-- A guard `{ field, operator, value? }`. -/
structure SMGuard where
  field : String
  operator : String
  value : Option Prim := none
deriving DecidableEq

/-- Result of evaluating a single guard. -/
structure GuardResult where
  pass : Bool
  reason : Option String
deriving DecidableEq, Repr

/-- JavaScript strict equality `resource[field] === resolved` restricted to
the model's types: an absent field (`undefined`) equals nothing (not even
`null`), primitives compare structurally, and an object or array field never
equals a primitive. -/
def jsEqPrim (fieldVal : Option JsVal) (p : Prim) : Bool :=
  fieldVal = some (primToJs p)

/-- Modelled from the spec: `evaluateGuard(guard, resource, context)` —
`is_null` passes iff the field is `null` or `undefined` (the failure reason
names the field); `equals` passes iff the field strictly equals the resolved
guard value; any other operator passes unconditionally. -/
def evaluateGuard (g : SMGuard) (resource : SMResource) (ctx : CallerContext) :
    GuardResult :=
  if g.operator = "is_null" then
    match getF resource g.field with
    | none => ⟨true, none⟩
    | some .null => ⟨true, none⟩
    | some _ => ⟨false, some s!"Field {g.field} is not null"⟩
  else if g.operator = "equals" then
    if jsEqPrim (getF resource g.field) (resolveValue g.value ctx) then ⟨true, none⟩
    else ⟨false, some s!"Field {g.field} does not equal expected value"⟩
  else ⟨true, none⟩

/-- Result of evaluating a guard list. -/
structure GuardsResult where
  pass : Bool
  failedGuard : Option String
  reason : Option String
deriving DecidableEq, Repr

/-- Loop of `evaluateGuards` over the guard names, in list order: a name
absent from the guards map is skipped; the first failing guard stops the
iteration and is reported by name together with its reason. -/
def evaluateGuardsList (names : List String) (guardsMap : List (String × SMGuard))
    (resource : SMResource) (ctx : CallerContext) : GuardsResult :=
  match names with
  | [] => ⟨true, none, none⟩
  | n :: rest =>
      match guardsMap.find? (fun kv => kv.1 = n) with
      | none => evaluateGuardsList rest guardsMap resource ctx
      | some kv =>
          let r := evaluateGuard kv.2 resource ctx
          if r.pass then evaluateGuardsList rest guardsMap resource ctx
          else ⟨false, some n, r.reason⟩

/-- Modelled from the spec: `evaluateGuards(guardNames, guardsMap, resource,
context)` — a `null` or empty list passes trivially; otherwise the names are
evaluated left-to-right with short-circuiting at the first failure. -/
def evaluateGuards (guardNames : Option (List String))
    (guardsMap : List (String × SMGuard)) (resource : SMResource)
    (ctx : CallerContext) : GuardsResult :=
  match guardNames with
  | none => ⟨true, none, none⟩
  | some names => evaluateGuardsList names guardsMap resource ctx

/-- An effect `{ type, field, value }`. -/
structure SMEffect where
  type : String
  field : String
  value : Option Prim := none
deriving DecidableEq

/-- A transition `{ trigger, from, to, guards?, effects? }`. -/
structure SMTransition where
  trigger : String
  fromState : String
  toState : String
  guards : Option (List String) := none
  effects : Option (List SMEffect) := none
deriving DecidableEq

/-- A state-machine contract, reduced to the pieces the transition flow
reads: the named guards map and the transition list. -/
structure StateMachine where
  guards : Option (List (String × SMGuard)) := none
  transitions : List SMTransition := []
deriving DecidableEq

/-- Modelled from the spec: `applySetEffect(effect, resource, context)` —
sets `resource[effect.field] = resolveValue(effect.value, context)`. -/
def applySetEffect (e : SMEffect) (resource : SMResource) (ctx : CallerContext) :
    SMResource :=
  putF resource e.field (primToJs (resolveValue e.value ctx))

/-- Modelled from the spec: `applyEffects(effects, resource, context)` —
`null`/empty effects is a no-op; effects apply in array order, each
observing earlier mutations; an effect whose `type` is not `set` is silently
skipped. -/
def applyEffects (effects : Option (List SMEffect)) (resource : SMResource)
    (ctx : CallerContext) : SMResource :=
  match effects with
  | none => resource
  | some es =>
      es.foldl (fun r e => if e.type = "set" then applySetEffect e r ctx else r) resource

/-- Display of the resource's current status in error messages. -/
def statusString (resource : SMResource) : String :=
  match getF resource "status" with
  | some (.str s) => s
  | _ => "undefined"

/-- Modelled from the spec: `findTransition(stateMachine, trigger, resource)`
— among the transitions with the requested trigger, the one whose `from`
equals the resource's current `status` wins; a trigger with no transitions
at all yields the distinct unknown-trigger error; a known trigger with no
`from` match yields an error naming the trigger and the current status. -/
def findTransition (sm : StateMachine) (trigger : String) (resource : SMResource) :
    Except String SMTransition :=
  let withTrigger := sm.transitions.filter (fun t => t.trigger = trigger)
  match withTrigger with
  | [] => .error s!"Unknown trigger: {trigger}"
  | _ :: _ =>
      match withTrigger.find? (fun t => getF resource "status" = some (.str t.fromState)) with
      | some t => .ok t
      | none =>
          let st := statusString resource
          .error s!"Cannot {trigger} from status {st}"

/-! ## Transition handler

Embedding of `packages/mock-server/src/handlers/transition-handler.js`.
The Express request/response pair is modelled as a function from a request
to a response; the external database collaborator is a parameter whose
operations may throw (the only steps inside the handler's `try` block that
can fail in this embedding). The handler additionally returns the list of
`update` invocations so that theorems can speak about what is persisted. -/

/-- A thrown JavaScript error: the catch block reads only `message`, and the
`stack` field stands for everything else an `Error` carries. -/
structure JsError where
  message : String
  stack : String
deriving DecidableEq, Repr

/-- The external database collaborator: `findById` and `update`. -/
structure Db where
  findById : String → Option String → Except JsError (Option SMResource)
  update : String → Option String → List (String × JsVal) → Except JsError SMResource

/-- An HTTP request: route parameters and (already lowercased, as Express
normalizes them) headers. -/
structure HttpRequest where
  params : List (String × String) := []
  headers : List (String × String) := []

/-- An HTTP response: status code and JSON body. -/
structure HttpResponse where
  status : Nat
  body : JsVal
deriving DecidableEq

/-- A recorded invocation of the database `update` operation. -/
structure UpdateCall where
  resourceName : String
  resourceId : Option String
  diff : List (String × JsVal)
deriving DecidableEq

/-- Route parameter lookup `req.params[paramName]`. -/
def getParam (req : HttpRequest) (name : String) : Option String :=
  match req.params.find? (fun kv => kv.1 = name) with
  | some kv => some kv.2
  | none => none

/-- Header lookup `req.headers['x-caller-id']`. -/
def getHeader (req : HttpRequest) (name : String) : Option String :=
  match req.headers.find? (fun kv => kv.1 = name) with
  | some kv => some kv.2
  | none => none

/-- The caller context built by the handler:
`{ caller: { id: callerId } }`. -/
def mkCallerContext (callerId : String) : CallerContext :=
  ⟨some [("id", .str callerId)]⟩

/-- The catch-block response: HTTP 500 with code `INTERNAL_ERROR`, a fixed
message and the thrown error's own message under `details` — and nothing
else from the error object. -/
def internalErrorResponse (e : JsError) : HttpResponse :=
  ⟨500, .obj [("code", .str "INTERNAL_ERROR"),
      ("message", .str "An unexpected error occurred"),
      ("details", .arr [.obj [("message", .str e.message)]])]⟩

/-- Display of a possibly-undefined route parameter inside a template
string, as JavaScript interpolation renders it. -/
def paramString : Option String → String
  | some s => s
  | none => "undefined"

/-- The shallow diff between the originally loaded resource and the updated
clone: iterate the updated record's entries (`Object.entries(updated)`) and
keep those whose value differs from the original's under `!==`. On the
model's types structural inequality coincides with `!==`: an untouched key
holds the very same value (in JavaScript, the same reference), and a touched
key holds a written primitive, which `===` compares structurally. -/
def shallowDiff (original updated : SMResource) : List (String × JsVal) :=
  updated.filter (fun kv => decide (getF original kv.1 ≠ some kv.2))

/-- The updated clone built on the handler's success path: spread-copy of
the resource, transition effects applied, then `status` unconditionally set
to the transition's `to` state. -/
def transitionUpdated (resource : SMResource) (ctx : CallerContext)
    (t : SMTransition) : SMResource :=
  putF (applyEffects t.effects resource ctx) "status" (.str t.toState)

/-- The transition handler for one `(resource type, trigger)` pair: header
check, resource load, transition lookup, guard evaluation, effect
application, status write, shallow diff, persistence. Each early HTTP error
response is returned directly; a throw from a database operation is caught
and reported by `internalErrorResponse`. The second component records the
`update` calls made. -/
def createTransitionHandler (db : Db) (resourceName : String) (sm : StateMachine)
    (trigger : String) (paramName : String) (req : HttpRequest) :
    HttpResponse × List UpdateCall :=
  let resourceId := getParam req paramName
  match getHeader req "x-caller-id" with
  | none =>
      (⟨400, .obj [("code", .str "BAD_REQUEST"),
          ("message", .str "X-Caller-Id header is required for state transitions")]⟩, [])
  | some callerId =>
      if callerId = "" then
        -- the empty string is falsy, so `if (!callerId)` also rejects it
        (⟨400, .obj [("code", .str "BAD_REQUEST"),
            ("message", .str "X-Caller-Id header is required for state transitions")]⟩, [])
      else
        match db.findById resourceName resourceId with
        | .error e => (internalErrorResponse e, [])
        | .ok none =>
            let p := paramString resourceId
            (⟨404, .obj [("code", .str "NOT_FOUND"),
                ("message", .str s!"Resource not found: {p}")]⟩, [])
        | .ok (some resource) =>
            match findTransition sm trigger resource with
            | .error msg =>
                (⟨409, .obj [("code", .str "CONFLICT"), ("message", .str msg)]⟩, [])
            | .ok t =>
                let context := mkCallerContext callerId
                let guardResult :=
                  evaluateGuards t.guards (sm.guards.getD []) resource context
                if guardResult.pass = false then
                  let g := guardResult.failedGuard.getD "null"
                  let r := guardResult.reason.getD "null"
                  (⟨409, .obj [("code", .str "CONFLICT"),
                      ("message", .str s!"Guard \"{g}\" failed: {r}")]⟩, [])
                else
                  let diff := shallowDiff resource (transitionUpdated resource context t)
                  match db.update resourceName resourceId diff with
                  | .error e => (internalErrorResponse e, [⟨resourceName, resourceId, diff⟩])
                  | .ok result =>
                      (⟨200, .obj result⟩, [⟨resourceName, resourceId, diff⟩])

/-! ## Heap-level embedding of the overlay resolver

JavaScript objects and arrays are mutable nodes identified by addresses;
a property value is either an inline primitive or a reference to a node.
This second view of the same source functions captures reference semantics:
`JSON.parse(JSON.stringify(spec))` allocates a fresh copy, assignments
mutate nodes in place, and an overlay `update` value is stored into the
working document by reference. It exists for the claims about observable
mutation of the caller's document, which the value-level view cannot
express. -/

/-- A heap address. -/
abbrev Addr := Nat

/-- A JavaScript value as stored in a property slot or variable: a primitive
held inline, or a reference to a heap node. -/
inductive HVal where
  | null
  | bool (b : Bool)
  | num (n : Int)
  | str (s : String)
  | ref (a : Addr)
deriving DecidableEq, Repr

/-- A heap node: an array of value slots or an object's ordered field list. -/
inductive HNode where
  | arrN (elems : List HVal)
  | objN (fields : List (String × HVal))
deriving DecidableEq, Repr

/-- The store: a partial map from addresses to nodes. -/
def Store := Addr → Option HNode

/-- The empty store. -/
def emptyStore : Store := fun _ => none

/-- In-place node update at one address. -/
def storeSet (s : Store) (a : Addr) (nd : HNode) : Store :=
  fun a' => if a' = a then some nd else s a'

/-- Read a heap value back as a tree, as `JSON.stringify` would serialize
it. The fuel bounds the reference depth (all children of a node are read at
one unit less); `none` means a dangling reference or exhausted fuel. In a
real acyclic heap any fuel above the depth suffices, and on a cyclic heap
`JSON.stringify` throws instead. -/
def readback : Nat → Store → HVal → Option JsVal
  | _, _, .null => some .null
  | _, _, .bool b => some (.bool b)
  | _, _, .num n => some (.num n)
  | _, _, .str s => some (.str s)
  | 0, _, .ref _ => none
  | fuel + 1, s, .ref a =>
      match s a with
      | none => none
      | some (.arrN es) => (es.mapM (fun v => readback fuel s v)).map JsVal.arr
      | some (.objN fs) =>
          (fs.mapM (fun kv => (readback fuel s kv.2).map (fun x => (kv.1, x)))).map
            JsVal.obj

mutual

/-- Allocate a tree as fresh heap nodes starting at address `n`, as
`JSON.parse` would build it: children first, each node at the next free
address. Returns the root value, the extended store and the next free
address. -/
def allocTree : JsVal → Store → Nat → HVal × Store × Nat
  | .null, s, n => (.null, s, n)
  | .bool b, s, n => (.bool b, s, n)
  | .num m, s, n => (.num m, s, n)
  | .str t, s, n => (.str t, s, n)
  | .arr es, s, n =>
      let r := allocTreeList es s n
      (.ref r.2.2, storeSet r.2.1 r.2.2 (.arrN r.1), r.2.2 + 1)
  | .obj fs, s, n =>
      let r := allocTreeFields fs s n
      (.ref r.2.2, storeSet r.2.1 r.2.2 (.objN r.1), r.2.2 + 1)

/-- Allocate the elements of an array left to right. -/
def allocTreeList : List JsVal → Store → Nat → List HVal × Store × Nat
  | [], s, n => ([], s, n)
  | v :: t, s, n =>
      let r := allocTree v s n
      let rt := allocTreeList t r.2.1 r.2.2
      (r.1 :: rt.1, rt.2.1, rt.2.2)

/-- Allocate the fields of an object left to right. -/
def allocTreeFields : List (String × JsVal) → Store → Nat →
    List (String × HVal) × Store × Nat
  | [], s, n => ([], s, n)
  | (k, v) :: t, s, n =>
      let r := allocTree v s n
      let rt := allocTreeFields t r.2.1 r.2.2
      ((k, r.1) :: rt.1, rt.2.1, rt.2.2)

end

/-- The `typeof v === 'object' && !Array.isArray(v)` test at the heap level:
`null`, or a reference to an object node. -/
def mergeSideH (s : Store) : HVal → Bool
  | .null => true
  | .ref a =>
      match s a with
      | some (.objN _) => true
      | _ => false
  | _ => false

/-- The merge-or-replace decision at the heap level, with an absent current
value never merging. -/
def mergeCondH (s : Store) (curLeaf : Option HVal) (value : HVal) : Bool :=
  mergeSideH s value && (match curLeaf with
    | some c => mergeSideH s c
    | none => false)

/-- Fields contributed by `{...v}` at the heap level: an object reference
spreads the referenced node's fields (the field values, i.e. references,
are copied — not the nodes), `null` spreads nothing. -/
def spreadValH (s : Store) : HVal → List (String × HVal)
  | .ref a =>
      match s a with
      | some (.objN fs) => fs
      | _ => []
  | _ => []

/-- Heap leaf step of `setAtPath`: on an object node, either store the merge
object `{...current[lastPart], ...value}` (freshly allocated at `next`) or
store `value` itself — in both cases by mutating the parent node in place. -/
def setLeafH (s : Store) (next : Nat) (cur : HVal) (lastPart : String)
    (value : HVal) : Store × Nat × Option JsErr :=
  match cur with
  | .ref a =>
      match s a with
      | some (.objN fs) =>
          if mergeCondH s (getF fs lastPart) value then
            let merged := spreadMerge (spreadValH s ((getF fs lastPart).getD .null))
              (spreadValH s value)
            let s1 := storeSet s next (.objN merged)
            (storeSet s1 a (.objN (putF fs lastPart (.ref next))), next + 1, none)
          else
            (storeSet s a (.objN (putF fs lastPart value)), next, none)
      | some (.arrN es) =>
          match parseIndex es.length lastPart with
          | some i =>
              if mergeCondH s (some (es.getD i .null)) value then
                let merged := spreadMerge (spreadValH s (es.getD i .null))
                  (spreadValH s value)
                let s1 := storeSet s next (.objN merged)
                (storeSet s1 a (.arrN (es.set i (.ref next))), next + 1, none)
              else
                (storeSet s a (.arrN (es.set i value)), next, none)
          | none => (s, next, some (.notModelled "array extension write"))
      | none => (s, next, some (.notModelled "dangling reference"))
  | .null => (s, next, some (.typeError "Cannot read properties of null"))
  | _ => (s, next, some (.typeError "Cannot create property on a primitive value"))

/-- Heap traversal-and-write loop of `setAtPath`: a missing intermediate
segment allocates `{}` at `next` and assigns it into the current node
before descending. Mutation needs no write-back here: the child is reached
by reference. -/
def setPartsH (s : Store) (next : Nat) (cur : HVal) :
    List String → String → HVal → Store × Nat × Option JsErr
  | [], lastPart, value => setLeafH s next cur lastPart value
  | p :: rest, lastPart, value =>
      match cur with
      | .ref a =>
          match s a with
          | some (.objN fs) =>
              match getF fs p with
              | some child => setPartsH s next child rest lastPart value
              | none =>
                  let s1 := storeSet s next (.objN [])
                  let s2 := storeSet s1 a (.objN (putF fs p (.ref next)))
                  setPartsH s2 (next + 1) (.ref next) rest lastPart value
          | some (.arrN es) =>
              match parseIndex es.length p with
              | some i => setPartsH s next (es.getD i .null) rest lastPart value
              | none => (s, next, some (.notModelled "array extension write"))
          | none => (s, next, some (.notModelled "dangling reference"))
      | .null => (s, next, some (.typeError "Cannot read properties of null"))
      | _ => (s, next, some (.typeError "Cannot create property on a primitive value"))

/-- Heap `setAtPath`. -/
def setAtPathH (s : Store) (next : Nat) (root : HVal) (path : String)
    (value : HVal) : Store × Nat × Option JsErr :=
  let parts := pathParts path
  setPartsH s next root parts.dropLast (parts.getLastD "") value

/-- Heap traversal-and-delete loop of `removeAtPath`. -/
def removePartsH (s : Store) (cur : HVal) : List String → String → Store × Option JsErr
  | [], lastPart =>
      match cur with
      | .ref a =>
          match s a with
          | some (.objN fs) => (storeSet s a (.objN (delF fs lastPart)), none)
          | some (.arrN es) =>
              match parseIndex es.length lastPart with
              | some _ => (s, some (.notModelled "array element delete"))
              | none => (s, none)
          | none => (s, some (.notModelled "dangling reference"))
      | .null => (s, some (.typeError "Cannot convert null to object"))
      | _ => (s, none)
  | p :: rest, lastPart =>
      match cur with
      | .ref a =>
          match s a with
          | some (.objN fs) =>
              match getF fs p with
              | some child => removePartsH s child rest lastPart
              | none => (s, none)
          | some (.arrN es) =>
              match parseIndex es.length p with
              | some i => removePartsH s (es.getD i .null) rest lastPart
              | none => (s, none)
          | none => (s, some (.notModelled "dangling reference"))
      | .null => (s, some (.typeError "Cannot read properties of null"))
      | _ => (s, none)

/-- Heap `removeAtPath`. -/
def removeAtPathH (s : Store) (root : HVal) (path : String) : Store × Option JsErr :=
  let parts := pathParts path
  removePartsH s root parts.dropLast (parts.getLastD "")

/-- Heap traversal-and-rename loop of `renameAtPath`. -/
def renamePartsH (s : Store) (cur : HVal) :
    List String → String → String → Store × Bool × Option JsErr
  | [], oldName, newName =>
      match cur with
      | .ref a =>
          match s a with
          | some (.objN fs) =>
              match getF fs oldName with
              | some v => (storeSet s a (.objN (delF (putF fs newName v) oldName)), true, none)
              | none => (s, false, none)
          | some (.arrN es) =>
              match parseIndex es.length oldName with
              | some _ => (s, false, some (.notModelled "array element rename"))
              | none => (s, false, none)
          | none => (s, false, some (.notModelled "dangling reference"))
      | .null => (s, false, some (.typeError "Cannot read properties of null"))
      | _ => (s, false, none)
  | p :: rest, oldName, newName =>
      match cur with
      | .ref a =>
          match s a with
          | some (.objN fs) =>
              match getF fs p with
              | some child => renamePartsH s child rest oldName newName
              | none => (s, false, none)
          | some (.arrN es) =>
              match parseIndex es.length p with
              | some i => renamePartsH s (es.getD i .null) rest oldName newName
              | none => (s, false, none)
          | none => (s, false, some (.notModelled "dangling reference"))
      | .null => (s, false, some (.typeError "Cannot read properties of null"))
      | _ => (s, false, none)

/-- Heap `renameAtPath`. -/
def renameAtPathH (s : Store) (root : HVal) (path : String) (newName : String) :
    Store × Bool × Option JsErr :=
  let parts := pathParts path
  renamePartsH s root parts.dropLast (parts.getLastD "") newName

/-- Heap `hasOwnProperty`, on the referenced node. -/
def hasOwnH (s : Store) (v : HVal) (k : String) : Bool :=
  match v with
  | .ref a =>
      match s a with
      | some (.objN fs) => (getF fs k).isSome
      | some (.arrN es) => (parseIndex es.length k).isSome
      | none => false
  | _ => false

/-- The owned child value, to be read only under `hasOwnH`. -/
def childH (s : Store) (v : HVal) (k : String) : HVal :=
  match v with
  | .ref a =>
      match s a with
      | some (.objN fs) => (getF fs k).getD .null
      | some (.arrN es) => (parseIndex es.length k).elim .null (fun i => es.getD i .null)
      | none => .null
  | _ => .null

/-- Heap loop of `checkPathExists`. -/
def checkPartsH (s : Store) : HVal → List String → List String → PathCheck
  | _, [], _ => ⟨true, true, none⟩
  | .null, p :: _, seen =>
      ⟨true, false, some (String.intercalate "." (seen ++ [p]))⟩
  | cur, p :: rest, seen =>
      if hasOwnH s cur p then checkPartsH s (childH s cur p) rest (seen ++ [p])
      else ⟨true, false, some (String.intercalate "." (seen ++ [p]))⟩

/-- Heap `checkPathExists`. -/
def checkPathExistsH (s : Store) (root : HVal) (path : String) : PathCheck :=
  let parts := pathParts path
  match parts with
  | [] => ⟨false, false, none⟩
  | r :: _ =>
      if hasOwnH s root r then checkPartsH s root parts []
      else ⟨false, false, none⟩

/-- Heap `rootExists`. -/
def rootExistsH (s : Store) (root : HVal) (path : String) : Bool :=
  match pathParts path with
  | [] => false
  | r :: _ => hasOwnH s root r

/-- The `typeof v === 'object'` test at the heap level. -/
def isTypeofObjectH (s : Store) : HVal → Bool
  | .null => true
  | .ref a => (s a).isSome
  | _ => false

/-- An overlay action at the heap level: the `update` value is a heap value
(typically a reference into the overlay document's own structure). -/
structure OverlayActionH where
  target : Option String := none
  update : Option HVal := none
  remove : Option HVal := none
  rename : Option String := none
  description : Option String := none
deriving DecidableEq

/-- Heap processing of a single overlay action, mutating the working
document through the fixed root reference. -/
def applyActionH (s : Store) (next : Nat) (root : HVal) (action : OverlayActionH)
    (warnings : List String) : Store × Nat × List String × Option JsErr :=
  if targetFalsy action.target then (s, next, warnings, none)
  else
    let target := action.target.getD ""
    if rootExistsH s root target = false then (s, next, warnings, none)
    else
      let pathCheck := checkPathExistsH s root target
      let isAddingProperties :=
        ".properties".data.isSuffixOf target.data &&
          (match action.update with
            | some v => isTypeofObjectH s v
            | none => false)
      let actionDesc := descOr action.description target
      let warnings :=
        if pathCheck.fullPathExists = false && isAddingProperties = false then
          warnings ++ [missingWarning (pathCheck.missingAt.getD "") actionDesc]
        else warnings
      if action.remove = some (.bool true) then
        match removeAtPathH s root target with
        | (s', err) => (s', next, warnings, err)
      else
        match action.rename with
        | some newName =>
            match renameAtPathH s root target newName with
            | (s', success, none) =>
                let warnings :=
                  if success = false && pathCheck.fullPathExists then
                    warnings ++ [renameFailedWarning target actionDesc]
                  else warnings
                (s', next, warnings, none)
            | (s', _, some e) => (s', next, warnings, some e)
        | none =>
            match action.update with
            | some v =>
                match setAtPathH s next root target v with
                | (s', n', err) => (s', n', warnings, err)
            | none => (s, next, warnings, none)

/-- Heap fold over the actions; a thrown error stops the loop and
propagates, leaving the store in its partially mutated state. -/
def applyActionsH (s : Store) (next : Nat) (root : HVal) :
    List OverlayActionH → List String → Store × Nat × Except JsErr (List String)
  | [], ws => (s, next, .ok ws)
  | act :: rest, ws =>
      match applyActionH s next root act ws with
      | (s', n', ws', none) => applyActionsH s' n' root rest ws'
      | (s', n', _, some e) => (s', n', .error e)

/-- Heap `applyOverlay`: the defensive deep clone
`JSON.parse(JSON.stringify(spec))` is serialization (`readback`) followed by
fresh allocation (`allocTree`) — the clone shares no node with anything that
existed before — and the actions then run against the clone's root. The
returned store is the final heap (also on a thrown error, which propagates
to the caller after any writes already performed). -/
def applyOverlayH (fuel : Nat) (s : Store) (next : Nat) (spec : HVal)
    (actions : Option (List OverlayActionH)) :
    Store × Nat × Except JsErr (HVal × List String) :=
  match readback fuel s spec with
  | none => (s, next, .error (.typeError "Converting circular structure to JSON"))
  | some tree =>
      let r := allocTree tree s next
      match actions with
      | none => (r.2.1, r.2.2, .ok (r.1, []))
      | some acts =>
          match applyActionsH r.2.1 r.2.2 r.1 acts [] with
          | (s', n', .ok ws) => (s', n', .ok (r.1, ws))
          | (s', n', .error e) => (s', n', .error e)

/-! ## Helper lemmas about the object field-list primitives -/

theorem getF_putF_self {α : Type} (fs : List (String × α)) (k : String) (v : α) :
    getF (putF fs k v) k = some v := by
  induction fs with
  | nil => simp [putF, getF]
  | cons hd t ih =>
      by_cases h : hd.1 = k
      · simp [putF, getF, h]
      · simp only [putF, getF]
        rw [if_neg (by exact h)]
        simp only [getF]
        rw [if_neg (by exact h)]
        exact ih

theorem getF_putF_ne {α : Type} (fs : List (String × α)) (k k' : String) (v : α)
    (h : k ≠ k') : getF (putF fs k v) k' = getF fs k' := by
  induction fs with
  | nil => simp [putF, getF, h]
  | cons hd t ih =>
      by_cases hh : hd.1 = k
      · simp [putF, getF, hh, h]
      · simp only [putF]
        rw [if_neg (by exact hh)]
        simp only [getF]
        by_cases hk : hd.1 = k'
        · rw [if_pos hk, if_pos hk]
        · rw [if_neg hk, if_neg hk]
          exact ih

theorem putF_self_of_getF {α : Type} (fs : List (String × α)) (k : String) (v : α)
    (h : getF fs k = some v) : putF fs k v = fs := by
  induction fs with
  | nil => simp [getF] at h
  | cons hd t ih =>
      by_cases hh : hd.1 = k
      · simp only [getF, if_pos hh] at h
        cases h
        simp only [putF, if_pos hh]
        rw [← hh]
      · simp only [getF, if_neg hh] at h
        simp only [putF, if_neg hh]
        rw [ih h]

theorem getF_eq_none_of_not_mem {α : Type} (fs : List (String × α)) (k : String)
    (h : k ∉ fs.map Prod.fst) : getF fs k = none := by
  induction fs with
  | nil => rfl
  | cons hd t ih =>
      simp only [List.map_cons, List.mem_cons, not_or] at h
      simp only [getF]
      rw [if_neg (fun hc => h.1 hc.symm)]
      exact ih h.2

theorem getF_delF_of_nodup {α : Type} (fs : List (String × α)) (k : String)
    (h : (fs.map Prod.fst).Nodup) : getF (delF fs k) k = none := by
  induction fs with
  | nil => simp [delF, getF]
  | cons hd t ih =>
      simp only [List.map_cons, List.nodup_cons] at h
      by_cases hh : hd.1 = k
      · simp only [delF, if_pos hh]
        exact getF_eq_none_of_not_mem t k (hh ▸ h.1)
      · simp only [delF, if_neg hh, getF]
        exact ih h.2

theorem getF_eq_of_mem_nodup {α : Type} (fs : List (String × α)) (k : String) (v : α)
    (hmem : (k, v) ∈ fs) (h : (fs.map Prod.fst).Nodup) : getF fs k = some v := by
  induction fs with
  | nil => simp at hmem
  | cons hd t ih =>
      simp only [List.map_cons, List.nodup_cons] at h
      rcases List.mem_cons.mp hmem with heq | ht
      · subst heq
        simp [getF]
      · simp only [getF]
        rw [if_neg]
        · exact ih ht h.2
        · intro hc
          exact h.1 (List.mem_map.mpr ⟨(k, v), ht, by simp [hc]⟩)

theorem putF_map_fst {α : Type} (fs : List (String × α)) (k : String) (v : α) :
    (putF fs k v).map Prod.fst =
      if k ∈ fs.map Prod.fst then fs.map Prod.fst else fs.map Prod.fst ++ [k] := by
  induction fs with
  | nil => simp [putF]
  | cons hd t ih =>
      by_cases hh : hd.1 = k
      · simp [putF, hh]
      · have hne : ¬k = hd.1 := fun hc => hh hc.symm
        simp only [putF, if_neg hh, List.map_cons, ih, List.mem_cons]
        by_cases hk : k ∈ t.map Prod.fst
        · simp [hk, hne]
        · simp [hk, hne]

theorem putF_map_fst_nodup {α : Type} (fs : List (String × α)) (k : String) (v : α)
    (h : (fs.map Prod.fst).Nodup) : ((putF fs k v).map Prod.fst).Nodup := by
  rw [putF_map_fst]
  by_cases hk : k ∈ fs.map Prod.fst
  · simpa [hk] using h
  · simp only [if_neg hk]
    simp [List.nodup_append, h, hk]

/-! ## Guard evaluation lemmas -/

/-- A guard name that either is absent from the map (skipped) or whose guard
passes on this resource and context. -/
def guardPassesOrSkipped (guardsMap : List (String × SMGuard)) (resource : SMResource)
    (ctx : CallerContext) (name : String) : Bool :=
  match guardsMap.find? (fun kv => kv.1 = name) with
  | none => true
  | some kv => (evaluateGuard kv.2 resource ctx).pass

theorem evaluateGuardsList_all_pass (guardsMap : List (String × SMGuard))
    (resource : SMResource) (ctx : CallerContext) :
    ∀ names : List String,
      (∀ x ∈ names, guardPassesOrSkipped guardsMap resource ctx x = true) →
      evaluateGuardsList names guardsMap resource ctx = ⟨true, none, none⟩ := by
  intro names
  induction names with
  | nil => intro _; rfl
  | cons n rest ih =>
      intro h
      have hn := h n (List.mem_cons_self n rest)
      have hrest := fun x hx => h x (List.mem_cons_of_mem n hx)
      unfold guardPassesOrSkipped at hn
      cases hfind : guardsMap.find? (fun kv => kv.1 = n) with
      | none =>
          simp only [evaluateGuardsList, hfind]
          exact ih hrest
      | some kv =>
          rw [hfind] at hn
          simp only at hn
          simp only [evaluateGuardsList, hfind]
          rw [if_pos hn]
          exact ih hrest

theorem evaluateGuardsList_first_fail (guardsMap : List (String × SMGuard))
    (resource : SMResource) (ctx : CallerContext) :
    ∀ (pre : List String) (n : String) (post : List String) (kv : String × SMGuard),
      (∀ x ∈ pre, guardPassesOrSkipped guardsMap resource ctx x = true) →
      guardsMap.find? (fun g => g.1 = n) = some kv →
      (evaluateGuard kv.2 resource ctx).pass = false →
      evaluateGuardsList (pre ++ n :: post) guardsMap resource ctx
        = ⟨false, some n, (evaluateGuard kv.2 resource ctx).reason⟩ := by
  intro pre
  induction pre with
  | nil =>
      intro n post kv _ hfind hfail
      simp only [List.nil_append, evaluateGuardsList, hfind]
      rw [if_neg (by rw [hfail]; exact Bool.false_ne_true)]
  | cons p rest ih =>
      intro n post kv hpre hfind hfail
      have hp := hpre p (List.mem_cons_self p rest)
      have hrest := fun x hx => hpre x (List.mem_cons_of_mem p hx)
      unfold guardPassesOrSkipped at hp
      cases hfindp : guardsMap.find? (fun kv => kv.1 = p) with
      | none =>
          simp only [List.cons_append, evaluateGuardsList, hfindp]
          exact ih n post kv hrest hfind hfail
      | some kvp =>
          rw [hfindp] at hp
          simp only at hp
          simp only [List.cons_append, evaluateGuardsList, hfindp]
          rw [if_pos hp]
          exact ih n post kv hrest hfind hfail

/-- C3. For every list of guard names, guards map, resource, and caller
context, `evaluateGuards` evaluates the named guards left-to-right in list
order, treats a name absent from the guards map as always-pass, stops at the
first failing guard and returns that guard's name as `failedGuard` (with its
reason) without the later names influencing the result, and returns
`pass = true` with `failedGuard = null` when the list is null or empty or
when every listed guard passes or is skipped. -/
theorem evaluateGuards_short_circuit (guardsMap : List (String × SMGuard))
    (resource : SMResource) (ctx : CallerContext) :
    evaluateGuards none guardsMap resource ctx = ⟨true, none, none⟩ ∧
    evaluateGuards (some []) guardsMap resource ctx = ⟨true, none, none⟩ ∧
    (∀ names : List String,
      (∀ x ∈ names, guardPassesOrSkipped guardsMap resource ctx x = true) →
      evaluateGuards (some names) guardsMap resource ctx = ⟨true, none, none⟩) ∧
    (∀ (pre : List String) (n : String) (post : List String) (kv : String × SMGuard),
      (∀ x ∈ pre, guardPassesOrSkipped guardsMap resource ctx x = true) →
      guardsMap.find? (fun g => g.1 = n) = some kv →
      (evaluateGuard kv.2 resource ctx).pass = false →
      evaluateGuards (some (pre ++ n :: post)) guardsMap resource ctx
        = ⟨false, some n, (evaluateGuard kv.2 resource ctx).reason⟩) := by
  refine ⟨rfl, rfl, ?_, ?_⟩
  · intro names h
    exact evaluateGuardsList_all_pass guardsMap resource ctx names h
  · intro pre n post kv hpre hfind hfail
    exact evaluateGuardsList_first_fail guardsMap resource ctx pre n post kv hpre hfind hfail

/-- Witness for C3 at the inputs of the engine unit tests: with
`isNull` failing and `isActive` present after it, evaluation stops at
`isNull`; and a list of passing/unknown names passes with no failed guard. -/
theorem evaluateGuards_short_circuit_witness :
    evaluateGuards (some (["nonExistent", "statusIsActive"] ++ "isNull" :: ["isActive"]))
        [("statusIsActive", ⟨"status", "equals", some (.str "active")⟩),
         ("isNull", ⟨"assignedToId", "is_null", none⟩),
         ("isActive", ⟨"status", "equals", some (.str "active")⟩)]
        [("assignedToId", .str "worker-1"), ("status", .str "active")] ⟨none⟩
      = ⟨false, some "isNull", some "Field assignedToId is not null"⟩ :=
  (evaluateGuards_short_circuit _ _ _).2.2.2
    ["nonExistent", "statusIsActive"] "isNull" ["isActive"]
    ("isNull", ⟨"assignedToId", "is_null", none⟩)
    (by decide) (by decide) (by decide)

/-- C4. Every guard whose operator is neither `is_null` nor `equals` passes
unconditionally with no reason, and every effect whose type is not `set`
leaves the resource unchanged when applied (so a list consisting only of
such effects is a no-op); both are total functions of their inputs, so
neither case raises an error. -/
theorem unknown_operator_and_effect_are_noops :
    (∀ (g : SMGuard) (resource : SMResource) (ctx : CallerContext),
      g.operator ≠ "is_null" → g.operator ≠ "equals" →
      evaluateGuard g resource ctx = ⟨true, none⟩) ∧
    (∀ (es : List SMEffect) (resource : SMResource) (ctx : CallerContext),
      (∀ e ∈ es, e.type ≠ "set") →
      applyEffects (some es) resource ctx = resource) := by
  constructor
  · intro g resource ctx h1 h2
    unfold evaluateGuard
    rw [if_neg h1, if_neg h2]
  · intro es
    induction es with
    | nil => intro resource ctx _; rfl
    | cons e rest ih =>
        intro resource ctx h
        have he := h e (List.mem_cons_self e rest)
        have hrest := fun x hx => h x (List.mem_cons_of_mem e hx)
        simp only [applyEffects, List.foldl_cons, if_neg he]
        exact ih resource ctx hrest

/-- Witness for C4 at the unit tests' inputs: the operator `future_op`
passes, and an effect list with only the type `unknown_type` leaves the
resource unchanged. -/
theorem unknown_operator_and_effect_are_noops_witness :
    evaluateGuard ⟨"x", "future_op", none⟩ [("x", .num 1)] ⟨none⟩ = ⟨true, none⟩ ∧
    applyEffects (some [⟨"unknown_type", "status", some (.str "active")⟩])
        [("status", .str "pending")] ⟨none⟩ = [("status", .str "pending")] :=
  ⟨(unknown_operator_and_effect_are_noops).1 ⟨"x", "future_op", none⟩
      [("x", .num 1)] ⟨none⟩ (by decide) (by decide),
    (unknown_operator_and_effect_are_noops).2
      [⟨"unknown_type", "status", some (.str "active")⟩]
      [("status", .str "pending")] ⟨none⟩ (by decide)⟩

theorem callerAttr_mkCallerContext_ne (callerId attr : String) (h : attr ≠ "id") :
    callerAttr (mkCallerContext callerId) attr = none := by
  unfold callerAttr mkCallerContext
  simp only []
  rw [List.find?_cons_of_neg, List.find?_nil]
  simpa using fun hc => h hc.symm

/-- C9. The caller context the transition handler passes to guard evaluation
and effect application holds exactly one attribute, `id`, bound to the
`X-Caller-Id` header value; consequently every templated value
`$caller.<attr>` with `attr` other than `id` resolves to `null` under that
context, whatever the contract says. -/
theorem handler_context_only_id (callerId : String) :
    mkCallerContext callerId = ⟨some [("id", .str callerId)]⟩ ∧
    (∀ (s attr : String), parseCallerTemplate s = some attr → attr ≠ "id" →
      resolveValue (some (.str s)) (mkCallerContext callerId) = .null) := by
  constructor
  · rfl
  · intro s attr hparse hne
    simp [resolveValue, hparse, callerAttr_mkCallerContext_ne callerId attr hne]

/-- Witness for C9: over HTTP with caller `worker-1`, the template
`$caller.name` resolves to `null`. -/
theorem handler_context_only_id_witness :
    resolveValue (some (.str "$caller.name")) (mkCallerContext "worker-1") = .null :=
  (handler_context_only_id "worker-1").2 "$caller.name" "name" (by decide) (by decide)

/-! ## setAtPath characterization -/

/-- The traversal of `setAtPath` over the intermediate segments, without the
write-back: a missing object key yields the freshly created `{}`, an
in-range array index steps into the element, and anything else is a
traversal `setParts` cannot complete normally. -/
def walkSet : JsVal → List String → Option JsVal
  | cur, [] => some cur
  | .obj fs, p :: rest => walkSet ((getF fs p).getD (.obj [])) rest
  | .arr es, p :: rest =>
      match parseIndex es.length p with
      | some i => walkSet (es.getD i .null) rest
      | none => none
  | .null, _ :: _ => none
  | .bool _, _ :: _ => none
  | .num _, _ :: _ => none
  | .str _, _ :: _ => none

theorem parseIndex_lt {len : Nat} {part : String} {i : Nat}
    (h : parseIndex len part = some i) : i < len := by
  unfold parseIndex at h
  split at h
  · exact absurd h (by simp)
  · split_ifs at h with h1 h2
    simp_all

theorem getD_set_self {α : Type} :
    ∀ (es : List α) (i : Nat) (x d : α), i < es.length → (es.set i x).getD i d = x
  | [], i, x, d, h => by simp at h
  | e :: t, 0, x, d, _ => by simp
  | e :: t, i + 1, x, d, h => by
      simp only [List.set, List.getD_cons_succ]
      exact getD_set_self t i x d (Nat.lt_of_succ_lt_succ h)

theorem setParts_resolve :
    ∀ (parts : List String) (doc : JsVal) (lastPart : String) (value : JsVal)
      (fs : List (String × JsVal)),
      walkSet doc parts = some (.obj fs) →
      ∃ r, setParts doc parts lastPart value = .ok r ∧
        resolveParts r (parts ++ [lastPart]) =
          some (leafValue (getF fs lastPart) value) := by
  intro parts
  induction parts with
  | nil =>
      intro doc lastPart value fs h
      simp only [walkSet, Option.some.injEq] at h
      subst h
      refine ⟨.obj (putF fs lastPart (leafValue (getF fs lastPart) value)), rfl, ?_⟩
      simp only [List.nil_append, resolveParts, getF_putF_self]
  | cons p rest ih =>
      intro doc lastPart value fs h
      cases doc with
      | obj fs0 =>
          simp only [walkSet] at h
          obtain ⟨r', h1, h2⟩ := ih ((getF fs0 p).getD (.obj [])) lastPart value fs h
          refine ⟨.obj (putF fs0 p r'), ?_, ?_⟩
          · simp only [setParts, h1, Except.map]
          · simp only [List.cons_append, resolveParts, getF_putF_self]
            exact h2
      | arr es =>
          simp only [walkSet] at h
          cases hp : parseIndex es.length p with
          | none => rw [hp] at h; cases h
          | some i =>
              rw [hp] at h
              obtain ⟨r', h1, h2⟩ := ih (es.getD i .null) lastPart value fs h
              refine ⟨.arr (es.set i r'), ?_, ?_⟩
              · simp only [setParts, hp, h1, Except.map]
              · simp only [List.cons_append, resolveParts, List.length_set, hp]
                rw [getD_set_self es i r' .null (parseIndex_lt hp)]
                exact h2
      | null => simp [walkSet] at h
      | bool b => simp [walkSet] at h
      | num n => simp [walkSet] at h
      | str s => simp [walkSet] at h

theorem splitDots_ne_nil : ∀ (l : List Char), splitDots l ≠ []
  | [] => by simp [splitDots]
  | c :: cs => by
      simp only [splitDots]
      cases h : splitDots cs with
      | nil => simp
      | cons hd t =>
          by_cases hc : c = '.'
          · simp [hc]
          · simp [hc]

theorem pathParts_ne_nil (path : String) : pathParts path ≠ [] := by
  unfold pathParts
  intro hc
  exact splitDots_ne_nil (cleanPath path).data (List.map_eq_nil_iff.mp hc)

theorem dropLast_append_getLastD {α : Type} :
    ∀ (l : List α) (d : α), l ≠ [] → l.dropLast ++ [l.getLastD d] = l
  | [], d, h => absurd rfl h
  | [a], d, _ => by simp
  | a :: b :: t, d, _ => by
      simp only [List.dropLast_cons₂, List.getLastD_cons, List.cons_append,
        List.cons.injEq, true_and]
      simpa only [List.getLastD_cons] using dropLast_append_getLastD (b :: t) b (by simp)

/-- C1 (amended). When the traversal over the path's intermediate segments
completes (reaching a plain object as the leaf's parent), `setAtPath`
succeeds and the value afterwards readable at the path is: the shallow
spread-merge `{...current, ...value}` exactly when both the new value and
the current leaf value satisfy `typeof x === 'object' && !Array.isArray(x)`
— which counts `null` as a mergeable (empty) object — and the new value
itself otherwise (in particular whenever the leaf was absent). -/
theorem setAtPath_merge_rule (doc : JsVal) (path : String) (value : JsVal)
    (fs : List (String × JsVal))
    (h : walkSet doc (pathParts path).dropLast = some (.obj fs)) :
    ∃ r, setAtPath doc path value = .ok r ∧
      resolvePath r path =
        some (if mergeCond (getF fs ((pathParts path).getLastD "")) value
          then JsVal.obj
            (spreadMerge (spreadVal ((getF fs ((pathParts path).getLastD "")).getD .null))
              (spreadVal value))
          else value) := by
  obtain ⟨r, h1, h2⟩ :=
    setParts_resolve (pathParts path).dropLast doc ((pathParts path).getLastD "")
      value fs h
  refine ⟨r, h1, ?_⟩
  unfold resolvePath
  rw [dropLast_append_getLastD (pathParts path) "" (pathParts_ne_nil path)] at h2
  rw [h2]
  rfl

/-- Witness for C1 (amended) at a concrete merge: setting `{y: 2}` at `a.b`
of `{a: {b: {x: 1}}}` merges into `{x: 1, y: 2}`. -/
theorem setAtPath_merge_rule_witness :
    ∃ r, setAtPath (.obj [("a", .obj [("b", .obj [("x", .num 1)])])]) "a.b"
        (.obj [("y", .num 2)]) = .ok r ∧
      resolvePath r "a.b" =
        some (if mergeCond
            (getF [("b", JsVal.obj [("x", .num 1)])] ((pathParts "a.b").getLastD ""))
            (.obj [("y", .num 2)])
          then JsVal.obj (spreadMerge
            (spreadVal ((getF [("b", JsVal.obj [("x", .num 1)])]
              ((pathParts "a.b").getLastD "")).getD .null))
            (spreadVal (.obj [("y", .num 2)])))
          else .obj [("y", .num 2)]) :=
  setAtPath_merge_rule (.obj [("a", .obj [("b", .obj [("x", .num 1)])])]) "a.b"
    (.obj [("y", .num 2)]) [("b", .obj [("x", .num 1)])] (by decide)

/-- C1 counterexample. The claim says a `null` new value replaces the leaf
outright; but `typeof null === 'object'`, so the source's merge test fires
when the current leaf is an object and `{...current, ...null}` keeps the
object unchanged: `setAtPath({a: {x: 1}}, 'a', null)` leaves `a` as
`{x: 1}` instead of replacing it with `null`. -/
theorem setAtPath_null_value_counterexample :
    setAtPath (.obj [("a", .obj [("x", .num 1)])]) "a" .null
      = .ok (.obj [("a", .obj [("x", .num 1)])]) ∧
    setAtPath (.obj [("a", .obj [("x", .num 1)])]) "a" .null
      ≠ .ok (.obj [("a", JsVal.null)]) := by decide

/-! ## renameAtPath characterization -/

/-- The strict traversal shared by `removeAtPath` and `renameAtPath`: no
creation of missing segments — an absent key, out-of-range index, `null` or
primitive stops the walk. -/
def walkStrict : JsVal → List String → Option JsVal
  | cur, [] => some cur
  | .obj fs, p :: rest =>
      match getF fs p with
      | some child => walkStrict child rest
      | none => none
  | .arr es, p :: rest =>
      match parseIndex es.length p with
      | some i => walkStrict (es.getD i .null) rest
      | none => none
  | .null, _ :: _ => none
  | .bool _, _ :: _ => none
  | .num _, _ :: _ => none
  | .str _, _ :: _ => none

theorem renameParts_self :
    ∀ (parts : List String) (doc : JsVal) (k : String)
      (fs : List (String × JsVal)) (v : JsVal),
      walkStrict doc parts = some (.obj fs) →
      getF fs k = some v →
      ∃ d', renameParts doc parts k k = .ok (true, d') ∧
        walkStrict d' parts = some (.obj (delF fs k)) := by
  intro parts
  induction parts with
  | nil =>
      intro doc k fs v h hget
      simp only [walkStrict, Option.some.injEq] at h
      subst h
      refine ⟨.obj (delF (putF fs k v) k), ?_, ?_⟩
      · simp only [renameParts, hget]
      · rw [putF_self_of_getF fs k v hget]
        rfl
  | cons p rest ih =>
      intro doc k fs v h hget
      cases doc with
      | obj fs0 =>
          simp only [walkStrict] at h
          cases hchild : getF fs0 p with
          | none => rw [hchild] at h; cases h
          | some child =>
              rw [hchild] at h
              obtain ⟨d', h1, h2⟩ := ih child k fs v h hget
              refine ⟨.obj (putF fs0 p d'), ?_, ?_⟩
              · simp only [renameParts, hchild, h1, Except.map]
              · simp only [walkStrict, getF_putF_self]
                exact h2
      | arr es =>
          simp only [walkStrict] at h
          cases hp : parseIndex es.length p with
          | none => rw [hp] at h; cases h
          | some i =>
              rw [hp] at h
              obtain ⟨d', h1, h2⟩ := ih (es.getD i .null) k fs v h hget
              refine ⟨.arr (es.set i d'), ?_, ?_⟩
              · simp only [renameParts, hp, h1, Except.map]
              · simp only [walkStrict, List.length_set, hp]
                rw [getD_set_self es i d' .null (parseIndex_lt hp)]
                exact h2
      | null => simp [walkStrict] at h
      | bool b => simp [walkStrict] at h
      | num n => simp [walkStrict] at h
      | str s => simp [walkStrict] at h

/-- C10. When the parent of the path exists and owns the leaf key,
`renameAtPath(doc, path, k)` with `k` equal to the leaf key itself returns
`true` and deletes the key from the parent — renaming a key to its own name
removes the key and its value instead of acting as the identity (the source
first overwrites `current[newName]` with the same value, then deletes
`current[oldName]`, which is the same slot). -/
theorem renameAtPath_to_self_deletes (doc : JsVal) (path : String)
    (fs : List (String × JsVal)) (v : JsVal)
    (h1 : walkStrict doc (pathParts path).dropLast = some (.obj fs))
    (h2 : getF fs ((pathParts path).getLastD "") = some v)
    (h3 : (fs.map Prod.fst).Nodup) :
    ∃ d', renameAtPath doc path ((pathParts path).getLastD "") = .ok (true, d') ∧
      walkStrict d' (pathParts path).dropLast
        = some (.obj (delF fs ((pathParts path).getLastD ""))) ∧
      getF (delF fs ((pathParts path).getLastD "")) ((pathParts path).getLastD "")
        = none := by
  obtain ⟨d', hr, hw⟩ :=
    renameParts_self (pathParts path).dropLast doc ((pathParts path).getLastD "")
      fs v h1 h2
  exact ⟨d', hr, hw, getF_delF_of_nodup fs _ h3⟩

/-- Witness for C10: renaming `b` to `b` in `{a: {b: 1}}` returns `true`
and yields `{a: {}}`. -/
theorem renameAtPath_to_self_deletes_witness :
    ∃ d', renameAtPath (.obj [("a", .obj [("b", .num 1)])]) "a.b"
        ((pathParts "a.b").getLastD "") = .ok (true, d') ∧
      walkStrict d' (pathParts "a.b").dropLast
        = some (.obj (delF [("b", JsVal.num 1)] ((pathParts "a.b").getLastD ""))) ∧
      getF (delF [("b", JsVal.num 1)] ((pathParts "a.b").getLastD ""))
        ((pathParts "a.b").getLastD "") = none :=
  renameAtPath_to_self_deletes (.obj [("a", .obj [("b", .num 1)])]) "a.b"
    [("b", .num 1)] (.num 1) (by decide) (by decide) (by decide)

/-! ## Non-totality of the path writers -/

/-- Values whose property traversal throws in strict mode: reading a
property of `null` throws at once, and a write `current[part] = ...` on a
boolean, number or string primitive throws. -/
def isNullOrPrim : JsVal → Bool
  | .null => true
  | .bool _ => true
  | .num _ => true
  | .str _ => true
  | .arr _ => false
  | .obj _ => false

theorem setParts_nullOrPrim (v : JsVal) (hv : isNullOrPrim v = true) :
    ∀ (parts : List String) (lastPart : String) (value : JsVal),
      ∃ m, setParts v parts lastPart value = .error (.typeError m) := by
  intro parts lastPart value
  cases v with
  | null => cases parts with
      | nil => exact ⟨_, rfl⟩
      | cons p rest => exact ⟨_, rfl⟩
  | bool b => cases parts with
      | nil => exact ⟨_, rfl⟩
      | cons p rest => exact ⟨_, rfl⟩
  | num n => cases parts with
      | nil => exact ⟨_, rfl⟩
      | cons p rest => exact ⟨_, rfl⟩
  | str s => cases parts with
      | nil => exact ⟨_, rfl⟩
      | cons p rest => exact ⟨_, rfl⟩
  | arr es => simp [isNullOrPrim] at hv
  | obj fs => simp [isNullOrPrim] at hv

theorem setParts_error_through_walk :
    ∀ (pre : List String) (doc v : JsVal) (post : List String) (lastPart : String)
      (value : JsVal) (m : String),
      walkSet doc pre = some v →
      setParts v post lastPart value = .error (.typeError m) →
      setParts doc (pre ++ post) lastPart value = .error (.typeError m) := by
  intro pre
  induction pre with
  | nil =>
      intro doc v post lastPart value m h herr
      simp only [walkSet, Option.some.injEq] at h
      subst h
      exact herr
  | cons p rest ih =>
      intro doc v post lastPart value m h herr
      cases doc with
      | obj fs0 =>
          simp only [walkSet] at h
          have hrec := ih ((getF fs0 p).getD (.obj [])) v post lastPart value m h herr
          cases hchild : getF fs0 p with
          | some child =>
              rw [hchild] at hrec
              simp only [Option.getD_some] at hrec
              simp only [List.cons_append, setParts, hchild, Option.getD_some,
                List.append_eq]
              rw [hrec]
              rfl
          | none =>
              rw [hchild] at hrec
              simp only [Option.getD_none] at hrec
              simp only [List.cons_append, setParts, hchild, Option.getD_none,
                List.append_eq]
              rw [hrec]
              rfl
      | arr es =>
          simp only [walkSet] at h
          cases hp : parseIndex es.length p with
          | none => rw [hp] at h; cases h
          | some i =>
              rw [hp] at h
              have hrec := ih (es.getD i .null) v post lastPart value m h herr
              simp only [List.cons_append, setParts, hp, List.append_eq]
              rw [hrec]
              rfl
      | null => simp [walkSet] at h
      | bool b => simp [walkSet] at h
      | num n => simp [walkSet] at h
      | str s => simp [walkSet] at h

/-- C8. `setAtPath` and `removeAtPath` are not total: whenever the creating
traversal of `setAtPath` reaches a value that is `null` or a non-object
primitive (strict mode), the remaining work throws a `TypeError` instead of
creating the intermediate object; `removeAtPath` likewise throws once its
traversal stands on `null`; and consequently `applyOverlay` itself throws on
an update action whose target's root segment exists (so it passes the
`rootExists` filter) but whose path traverses a `null` value. -/
theorem setAtPath_not_total :
    (∀ (v : JsVal), isNullOrPrim v = true →
      ∀ (parts : List String) (lastPart : String) (value : JsVal),
        ∃ m, setParts v parts lastPart value = .error (.typeError m)) ∧
    (∀ (doc : JsVal) (pre post : List String) (lastPart : String) (value v : JsVal),
      walkSet doc pre = some v → isNullOrPrim v = true →
      ∃ m, setParts doc (pre ++ post) lastPart value = .error (.typeError m)) ∧
    (∀ (parts : List String) (lastPart : String),
      ∃ m, removeParts JsVal.null parts lastPart = .error (.typeError m)) ∧
    (rootExists (.obj [("Person", .obj [("a", JsVal.null)])]) "Person.a.b" = true ∧
      applyOverlay (.obj [("Person", .obj [("a", JsVal.null)])])
          ⟨some [⟨some "Person.a.b", some (.num 5), none, none, none⟩]⟩
        = .error (.typeError "Cannot read properties of null")) := by
  refine ⟨setParts_nullOrPrim, ?_, ?_, by decide, by decide⟩
  · intro doc pre post lastPart value v hwalk hv
    obtain ⟨m, hm⟩ := setParts_nullOrPrim v hv post lastPart value
    exact ⟨m, setParts_error_through_walk pre doc v post lastPart value m hwalk hm⟩
  · intro parts lastPart
    cases parts with
    | nil => exact ⟨_, rfl⟩
    | cons p rest => exact ⟨_, rfl⟩

/-- Witness for C8: in `{Person: {a: null}}` the set-traversal of
`Person.a` reaches `null`, and `setAtPath` on `Person.a.b` (split as那
traversal plus the leaf) throws a `TypeError`. -/
theorem setAtPath_not_total_witness :
    ∃ m, setParts (.obj [("Person", .obj [("a", JsVal.null)])])
        (["Person", "a"] ++ []) "b" (.num 5) = .error (.typeError m) :=
  setAtPath_not_total.2.1 (.obj [("Person", .obj [("a", JsVal.null)])])
    ["Person", "a"] [] "b" (.num 5) JsVal.null (by decide) (by decide)

/-! ## Rename warnings in applyOverlay -/

/-- C7 counterexample. A rename action whose root exists but whose full
target path does not (`$.Person.properties.nonexistent`): the rename fails,
yet the returned warnings list holds exactly the one general
path-does-not-exist warning — no distinct "Rename failed" warning is added,
because the source appends that warning only when `pathCheck.fullPathExists`
is true. This is the scenario of the unit test "rename warns on non-existent
target", which asserts `warnings.length === 1`. -/
theorem rename_missing_target_single_warning :
    applyOverlay
        (.obj [("Person", .obj [("properties",
          .obj [("name", .obj [("type", .str "string")])])])])
        ⟨some [⟨some "$.Person.properties.nonexistent", none, none, some "newName",
          some "Try to rename missing field"⟩]⟩
      = .ok (.obj [("Person", .obj [("properties",
            .obj [("name", .obj [("type", .str "string")])])])],
          [missingWarning "Person.properties.nonexistent" "Try to rename missing field"]) ∧
    missingWarning "Person.properties.nonexistent" "Try to rename missing field"
      ≠ renameFailedWarning "$.Person.properties.nonexistent"
          "Try to rename missing field" := by decide

/-- C7 (amended). For a rename action whose target's root segment exists but
whose full target path does not exist, and whose rename call returns
normally, the overlay of that single action yields exactly the general
path-does-not-exist warning: the distinct "Rename failed" warning is
appended only in the opposite situation, when `checkPathExists` reports the
full path as existing and the rename nevertheless fails. -/
theorem rename_failed_warning_condition (doc : JsVal) (target newName : String)
    (dsc : Option String) (success : Bool) (d' : JsVal)
    (htarget : target ≠ "")
    (hroot : rootExists doc target = true)
    (hfull : (checkPathExists doc target).fullPathExists = false)
    (hok : renameAtPath doc target newName = .ok (success, d')) :
    applyOverlay doc ⟨some [⟨some target, none, none, some newName, dsc⟩]⟩
      = .ok (d', [missingWarning ((checkPathExists doc target).missingAt.getD "")
          (descOr dsc target)]) := by
  unfold applyOverlay
  simp only [List.foldlM]
  unfold applyAction
  simp [targetFalsy, htarget, hroot, hfull, hok, Except.map]

/-- Witness for C7 (amended) at the unit test's input. -/
theorem rename_failed_warning_condition_witness :
    applyOverlay
        (.obj [("Person", .obj [("properties",
          .obj [("name", .obj [("type", .str "string")])])])])
        ⟨some [⟨some "$.Person.properties.nonexistent", none, none, some "newName",
          some "Try to rename missing field"⟩]⟩
      = .ok (.obj [("Person", .obj [("properties",
            .obj [("name", .obj [("type", .str "string")])])])],
          [missingWarning ((checkPathExists
              (.obj [("Person", .obj [("properties",
                .obj [("name", .obj [("type", .str "string")])])])])
              "$.Person.properties.nonexistent").missingAt.getD "")
            (descOr (some "Try to rename missing field")
              "$.Person.properties.nonexistent")]) :=
  rename_failed_warning_condition
    (.obj [("Person", .obj [("properties",
      .obj [("name", .obj [("type", .str "string")])])])])
    "$.Person.properties.nonexistent" "newName" (some "Try to rename missing field")
    false
    (.obj [("Person", .obj [("properties",
      .obj [("name", .obj [("type", .str "string")])])])])
    (by decide) (by decide) (by decide) (by decide)

/-! ## Transition handler theorems -/

theorem applyEffects_keys_nodup :
    ∀ (es : List SMEffect) (resource : SMResource) (ctx : CallerContext),
      (resource.map Prod.fst).Nodup →
      ((applyEffects (some es) resource ctx).map Prod.fst).Nodup := by
  intro es
  induction es with
  | nil => intro resource ctx h; exact h
  | cons e rest ih =>
      intro resource ctx h
      simp only [applyEffects, List.foldl_cons]
      by_cases he : e.type = "set"
      · rw [if_pos he]
        exact ih (applySetEffect e resource ctx) ctx
          (putF_map_fst_nodup resource e.field _ h)
      · rw [if_neg he]
        exact ih resource ctx h

theorem transitionUpdated_keys_nodup (resource : SMResource) (ctx : CallerContext)
    (t : SMTransition) (h : (resource.map Prod.fst).Nodup) :
    ((transitionUpdated resource ctx t).map Prod.fst).Nodup := by
  unfold transitionUpdated
  apply putF_map_fst_nodup
  cases t.effects with
  | none => exact h
  | some es => exact applyEffects_keys_nodup es resource ctx h

theorem mem_shallowDiff_iff (original updated : SMResource) (k : String) (v : JsVal) :
    (k, v) ∈ shallowDiff original updated ↔
      (k, v) ∈ updated ∧ getF original k ≠ some v := by
  unfold shallowDiff
  rw [List.mem_filter]
  simp

theorem createTransitionHandler_success_run (db : Db) (resourceName : String)
    (sm : StateMachine) (trigger paramName : String) (req : HttpRequest)
    (callerId : String) (resource : SMResource) (t : SMTransition)
    (hh : getHeader req "x-caller-id" = some callerId)
    (hne : callerId ≠ "")
    (hf : db.findById resourceName (getParam req paramName) = .ok (some resource))
    (ht : findTransition sm trigger resource = .ok t)
    (hg : (evaluateGuards t.guards (sm.guards.getD []) resource
        (mkCallerContext callerId)).pass = true) :
    createTransitionHandler db resourceName sm trigger paramName req =
      (match db.update resourceName (getParam req paramName)
          (shallowDiff resource (transitionUpdated resource (mkCallerContext callerId) t)) with
        | .error e => (internalErrorResponse e,
            [⟨resourceName, getParam req paramName,
              shallowDiff resource (transitionUpdated resource (mkCallerContext callerId) t)⟩])
        | .ok result => (⟨200, .obj result⟩,
            [⟨resourceName, getParam req paramName,
              shallowDiff resource (transitionUpdated resource (mkCallerContext callerId) t)⟩])) := by
  unfold createTransitionHandler
  rw [hh]
  dsimp only
  rw [if_neg hne]
  rw [hf]
  dsimp only
  rw [ht]
  dsimp only
  rw [if_neg (by simp [hg])]

/-- C5. On the transition handler's success path (caller header present and
nonempty, resource found, transition found, guards passed, update accepted),
the database `update` operation is invoked exactly once, with exactly the
entries of the updated clone (effects applied, then `status` set to the
transition's `to` state) whose values differ from the originally loaded
resource's under strict comparison; a top-level key whose value is unchanged
is never part of the persisted diff. -/
theorem transition_handler_persists_shallow_diff (db : Db) (resourceName : String)
    (sm : StateMachine) (trigger paramName : String) (req : HttpRequest)
    (callerId : String) (resource : SMResource) (t : SMTransition)
    (updatedRecord : SMResource)
    (hh : getHeader req "x-caller-id" = some callerId)
    (hne : callerId ≠ "")
    (hf : db.findById resourceName (getParam req paramName) = .ok (some resource))
    (ht : findTransition sm trigger resource = .ok t)
    (hg : (evaluateGuards t.guards (sm.guards.getD []) resource
        (mkCallerContext callerId)).pass = true)
    (hnodup : (resource.map Prod.fst).Nodup)
    (hupd : db.update resourceName (getParam req paramName)
        (shallowDiff resource (transitionUpdated resource (mkCallerContext callerId) t))
      = .ok updatedRecord) :
    createTransitionHandler db resourceName sm trigger paramName req
      = (⟨200, .obj updatedRecord⟩,
          [⟨resourceName, getParam req paramName,
            shallowDiff resource (transitionUpdated resource (mkCallerContext callerId) t)⟩]) ∧
    (∀ (k : String) (v : JsVal),
      (k, v) ∈ shallowDiff resource (transitionUpdated resource (mkCallerContext callerId) t) ↔
        (k, v) ∈ transitionUpdated resource (mkCallerContext callerId) t ∧
          getF resource k ≠ some v) ∧
    (∀ k : String,
      getF (transitionUpdated resource (mkCallerContext callerId) t) k = getF resource k →
      k ∉ (shallowDiff resource
        (transitionUpdated resource (mkCallerContext callerId) t)).map Prod.fst) := by
  refine ⟨?_, ?_, ?_⟩
  · rw [createTransitionHandler_success_run db resourceName sm trigger paramName req
      callerId resource t hh hne hf ht hg, hupd]
  · intro k v
    exact mem_shallowDiff_iff resource (transitionUpdated resource (mkCallerContext callerId) t) k v
  · intro k hsame hmem
    rcases List.mem_map.mp hmem with ⟨kv, hkv, hfst⟩
    obtain ⟨hin, hne'⟩ :=
      (mem_shallowDiff_iff resource _ kv.1 kv.2).mp (by
        have : kv = (kv.1, kv.2) := rfl
        rw [← this]; exact hkv)
    have hupdget : getF (transitionUpdated resource (mkCallerContext callerId) t) kv.1
        = some kv.2 :=
      getF_eq_of_mem_nodup _ kv.1 kv.2 (by
        have : kv = (kv.1, kv.2) := rfl
        rw [← this]; exact hin)
        (transitionUpdated_keys_nodup resource (mkCallerContext callerId) t hnodup)
    rw [hfst] at hupdget
    rw [hsame] at hupdget
    exact hne' (by rw [hfst]; exact hupdget)

/-- Witness for C5 at the spec's end-to-end example: claiming a pending
unassigned workflow as `worker-1` persists exactly
`{status: 'in_progress', assignedToId: 'worker-1'}`. -/
theorem transition_handler_persists_shallow_diff_witness :
    createTransitionHandler
        ⟨fun _ _ => .ok (some [("id", .str "w1"), ("status", .str "pending"),
            ("assignedToId", JsVal.null)]),
          fun _ _ _ => .ok [("done", .bool true)]⟩
        "workflow"
        ⟨some [("taskIsUnassigned", ⟨"assignedToId", "is_null", none⟩)],
          [⟨"claim", "pending", "in_progress", some ["taskIsUnassigned"],
            some [⟨"set", "assignedToId", some (.str "$caller.id")⟩]⟩]⟩
        "claim" "workflowId"
        ⟨[("workflowId", "w1")], [("x-caller-id", "worker-1")]⟩
      = (⟨200, .obj [("done", .bool true)]⟩,
          [⟨"workflow", some "w1",
            shallowDiff [("id", .str "w1"), ("status", .str "pending"),
                ("assignedToId", JsVal.null)]
              (transitionUpdated [("id", .str "w1"), ("status", .str "pending"),
                  ("assignedToId", JsVal.null)]
                (mkCallerContext "worker-1")
                ⟨"claim", "pending", "in_progress", some ["taskIsUnassigned"],
                  some [⟨"set", "assignedToId", some (.str "$caller.id")⟩]⟩)⟩]) ∧
    shallowDiff [("id", .str "w1"), ("status", .str "pending"),
        ("assignedToId", JsVal.null)]
      (transitionUpdated [("id", .str "w1"), ("status", .str "pending"),
          ("assignedToId", JsVal.null)]
        (mkCallerContext "worker-1")
        ⟨"claim", "pending", "in_progress", some ["taskIsUnassigned"],
          some [⟨"set", "assignedToId", some (.str "$caller.id")⟩]⟩)
      = [("status", .str "in_progress"), ("assignedToId", .str "worker-1")] :=
  ⟨(transition_handler_persists_shallow_diff _ "workflow" _ "claim" "workflowId" _
      "worker-1" [("id", .str "w1"), ("status", .str "pending"),
        ("assignedToId", JsVal.null)]
      ⟨"claim", "pending", "in_progress", some ["taskIsUnassigned"],
        some [⟨"set", "assignedToId", some (.str "$caller.id")⟩]⟩
      [("done", .bool true)]
      (by decide) (by decide) (by decide) (by decide) (by decide) (by decide)
      (by decide)).1,
    by decide⟩

/-- C6. When a step inside the handler's try block throws (in this
embedding the fallible steps are the two database collaborator calls), the
handler catches the exception and responds with HTTP 500 and code
`INTERNAL_ERROR`, carrying the exception's `message` in the response body
(`details[0].message`) next to a fixed human-readable message; the response
is a function of the message alone — independent of the stack or anything
else the error object carries — so no stack trace can leak. -/
theorem transition_handler_internal_error :
    (∀ (m st st' : String),
      internalErrorResponse ⟨m, st⟩ = internalErrorResponse ⟨m, st'⟩) ∧
    (∀ e : JsError, internalErrorResponse e =
      ⟨500, .obj [("code", .str "INTERNAL_ERROR"),
        ("message", .str "An unexpected error occurred"),
        ("details", .arr [.obj [("message", .str e.message)]])]⟩) ∧
    (∀ (db : Db) (resourceName : String) (sm : StateMachine)
        (trigger paramName : String) (req : HttpRequest) (callerId : String)
        (e : JsError),
      getHeader req "x-caller-id" = some callerId → callerId ≠ "" →
      db.findById resourceName (getParam req paramName) = .error e →
      createTransitionHandler db resourceName sm trigger paramName req
        = (internalErrorResponse e, [])) ∧
    (∀ (db : Db) (resourceName : String) (sm : StateMachine)
        (trigger paramName : String) (req : HttpRequest) (callerId : String)
        (resource : SMResource) (t : SMTransition) (e : JsError),
      getHeader req "x-caller-id" = some callerId → callerId ≠ "" →
      db.findById resourceName (getParam req paramName) = .ok (some resource) →
      findTransition sm trigger resource = .ok t →
      (evaluateGuards t.guards (sm.guards.getD []) resource
        (mkCallerContext callerId)).pass = true →
      db.update resourceName (getParam req paramName)
          (shallowDiff resource (transitionUpdated resource (mkCallerContext callerId) t))
        = .error e →
      createTransitionHandler db resourceName sm trigger paramName req
        = (internalErrorResponse e,
            [⟨resourceName, getParam req paramName,
              shallowDiff resource
                (transitionUpdated resource (mkCallerContext callerId) t)⟩])) := by
  refine ⟨fun m st st' => rfl, fun e => rfl, ?_, ?_⟩
  · intro db resourceName sm trigger paramName req callerId e hh hne hf
    unfold createTransitionHandler
    rw [hh]
    dsimp only
    rw [if_neg hne]
    rw [hf]
  · intro db resourceName sm trigger paramName req callerId resource t e hh hne hf ht hg hupd
    rw [createTransitionHandler_success_run db resourceName sm trigger paramName req
      callerId resource t hh hne hf ht hg, hupd]

/-- Witness for C6: a `findById` that throws `boom` yields the 500
INTERNAL_ERROR response carrying `boom`, independent of the stack. -/
theorem transition_handler_internal_error_witness :
    createTransitionHandler
        ⟨fun _ _ => .error ⟨"boom", "stack frames"⟩, fun _ _ _ => .ok []⟩
        "workflow" ⟨none, []⟩ "claim" "workflowId"
        ⟨[], [("x-caller-id", "worker-1")]⟩
      = (internalErrorResponse ⟨"boom", "stack frames"⟩, []) ∧
    internalErrorResponse ⟨"boom", "stack frames"⟩
      = internalErrorResponse ⟨"boom", "other stack"⟩ :=
  ⟨transition_handler_internal_error.2.2.1
      ⟨fun _ _ => .error ⟨"boom", "stack frames"⟩, fun _ _ _ => .ok []⟩
      "workflow" ⟨none, []⟩ "claim" "workflowId"
      ⟨[], [("x-caller-id", "worker-1")]⟩ "worker-1" ⟨"boom", "stack frames"⟩
      (by decide) (by decide) (by decide),
    transition_handler_internal_error.1 "boom" "stack frames" "other stack"⟩

/-! ## Heap regions

The frame argument for `applyOverlay`'s defensive clone: addresses are
partitioned by a bound, the original document lives strictly below it, and
everything the overlay machinery can reach or write lives at or above it. -/

/-- A heap value whose reference (if any) lies in `[lo, hi)`. -/
def HValIn (lo hi : Nat) (v : HVal) : Prop :=
  ∀ a, v = .ref a → lo ≤ a ∧ a < hi

/-- A node all of whose contained values are `HValIn lo hi`. -/
def NodeIn (lo hi : Nat) : HNode → Prop
  | .arrN es => ∀ v ∈ es, HValIn lo hi v
  | .objN fs => ∀ kv ∈ fs, HValIn lo hi kv.2

/-- A heap value whose reference (if any) lies at or above `B`. -/
def HValHi (B : Nat) (v : HVal) : Prop :=
  ∀ a, v = .ref a → B ≤ a

/-- A node all of whose contained values are `HValHi B`. -/
def NodeHi (B : Nat) : HNode → Prop
  | .arrN es => ∀ v ∈ es, HValHi B v
  | .objN fs => ∀ kv ∈ fs, HValHi B kv.2

/-- Every node at or above `B` refers only at or above `B`: the high region
is closed under following references. -/
def HiClosed (B : Nat) (s : Store) : Prop :=
  ∀ a nd, B ≤ a → s a = some nd → NodeHi B nd

theorem storeSet_eq (s : Store) (a : Addr) (nd : HNode) :
    storeSet s a nd a = some nd := by
  simp [storeSet]

theorem storeSet_ne (s : Store) (a a' : Addr) (nd : HNode) (h : a' ≠ a) :
    storeSet s a nd a' = s a' := by
  simp [storeSet, h]

theorem HValIn_mono {lo hi lo' hi' : Nat} (h1 : lo' ≤ lo) (h2 : hi ≤ hi')
    {v : HVal} (h : HValIn lo hi v) : HValIn lo' hi' v := by
  intro a ha
  obtain ⟨x, y⟩ := h a ha
  exact ⟨Nat.le_trans h1 x, Nat.lt_of_lt_of_le y h2⟩

theorem NodeIn_mono {lo hi lo' hi' : Nat} (h1 : lo' ≤ lo) (h2 : hi ≤ hi')
    {nd : HNode} (h : NodeIn lo hi nd) : NodeIn lo' hi' nd := by
  cases nd with
  | arrN es => exact fun v hv => HValIn_mono h1 h2 (h v hv)
  | objN fs => exact fun kv hkv => HValIn_mono h1 h2 (h kv hkv)

theorem HValIn_hi {lo hi : Nat} {v : HVal} (h : HValIn lo hi v) : HValHi lo v :=
  fun a ha => (h a ha).1

theorem NodeIn_hi {lo hi : Nat} {nd : HNode} (h : NodeIn lo hi nd) : NodeHi lo nd := by
  cases nd with
  | arrN es => exact fun v hv => HValIn_hi (h v hv)
  | objN fs => exact fun kv hkv => HValIn_hi (h kv hkv)

mutual

theorem allocTree_spec : ∀ (t : JsVal) (s : Store) (n : Nat),
    n ≤ (allocTree t s n).2.2 ∧
    (∀ a, a < n ∨ (allocTree t s n).2.2 ≤ a → (allocTree t s n).2.1 a = s a) ∧
    HValIn n (allocTree t s n).2.2 (allocTree t s n).1 ∧
    (∀ a, n ≤ a → a < (allocTree t s n).2.2 →
      ∃ nd, (allocTree t s n).2.1 a = some nd ∧
        NodeIn n (allocTree t s n).2.2 nd)
  | .null, s, n => by
      refine ⟨Nat.le_refl n, fun a _ => rfl, ?_, ?_⟩
      · intro a ha; cases ha
      · intro a h1 h2
        simp only [allocTree] at h2
        omega
  | .bool b, s, n => by
      refine ⟨Nat.le_refl n, fun a _ => rfl, ?_, ?_⟩
      · intro a ha; cases ha
      · intro a h1 h2
        simp only [allocTree] at h2
        omega
  | .num m, s, n => by
      refine ⟨Nat.le_refl n, fun a _ => rfl, ?_, ?_⟩
      · intro a ha; cases ha
      · intro a h1 h2
        simp only [allocTree] at h2
        omega
  | .str t, s, n => by
      refine ⟨Nat.le_refl n, fun a _ => rfl, ?_, ?_⟩
      · intro a ha; cases ha
      · intro a h1 h2
        simp only [allocTree] at h2
        omega
  | .arr es, s, n => by
      obtain ⟨hle, hframe, hvals, hregion⟩ := allocTreeList_spec es s n
      simp only [allocTree]
      refine ⟨?_, ?_, ?_, ?_⟩
      · exact Nat.le_succ_of_le hle
      · intro a ha
        rw [storeSet_ne]
        · apply hframe
          rcases ha with h | h
          · exact Or.inl h
          · exact Or.inr (Nat.le_of_succ_le h)
        · rcases ha with h | h
          · exact Nat.ne_of_lt (Nat.lt_of_lt_of_le h hle)
          · exact fun hc => Nat.not_succ_le_self _ (hc ▸ h)
      · intro a ha
        cases ha
        exact ⟨hle, Nat.lt_succ_self _⟩
      · intro a h1 h2
        by_cases hc : a = (allocTreeList es s n).2.2
        · subst hc
          refine ⟨.arrN (allocTreeList es s n).1, storeSet_eq _ _ _, ?_⟩
          intro v hv
          exact HValIn_mono (Nat.le_refl n) (Nat.le_succ _) (hvals v hv)
        · have h2' : a < (allocTreeList es s n).2.2 :=
            Nat.lt_of_le_of_ne (Nat.le_of_lt_succ h2) hc
          obtain ⟨nd, hnd, hin⟩ := hregion a h1 h2'
          refine ⟨nd, ?_, NodeIn_mono (Nat.le_refl n) (Nat.le_succ _) hin⟩
          rw [storeSet_ne _ _ _ _ hc]
          exact hnd
  | .obj fs, s, n => by
      obtain ⟨hle, hframe, hvals, hregion⟩ := allocTreeFields_spec fs s n
      simp only [allocTree]
      refine ⟨?_, ?_, ?_, ?_⟩
      · exact Nat.le_succ_of_le hle
      · intro a ha
        rw [storeSet_ne]
        · apply hframe
          rcases ha with h | h
          · exact Or.inl h
          · exact Or.inr (Nat.le_of_succ_le h)
        · rcases ha with h | h
          · exact Nat.ne_of_lt (Nat.lt_of_lt_of_le h hle)
          · exact fun hc => Nat.not_succ_le_self _ (hc ▸ h)
      · intro a ha
        cases ha
        exact ⟨hle, Nat.lt_succ_self _⟩
      · intro a h1 h2
        by_cases hc : a = (allocTreeFields fs s n).2.2
        · subst hc
          refine ⟨.objN (allocTreeFields fs s n).1, storeSet_eq _ _ _, ?_⟩
          intro kv hkv
          exact HValIn_mono (Nat.le_refl n) (Nat.le_succ _) (hvals kv hkv)
        · have h2' : a < (allocTreeFields fs s n).2.2 :=
            Nat.lt_of_le_of_ne (Nat.le_of_lt_succ h2) hc
          obtain ⟨nd, hnd, hin⟩ := hregion a h1 h2'
          refine ⟨nd, ?_, NodeIn_mono (Nat.le_refl n) (Nat.le_succ _) hin⟩
          rw [storeSet_ne _ _ _ _ hc]
          exact hnd

theorem allocTreeList_spec : ∀ (es : List JsVal) (s : Store) (n : Nat),
    n ≤ (allocTreeList es s n).2.2 ∧
    (∀ a, a < n ∨ (allocTreeList es s n).2.2 ≤ a →
      (allocTreeList es s n).2.1 a = s a) ∧
    (∀ v ∈ (allocTreeList es s n).1, HValIn n (allocTreeList es s n).2.2 v) ∧
    (∀ a, n ≤ a → a < (allocTreeList es s n).2.2 →
      ∃ nd, (allocTreeList es s n).2.1 a = some nd ∧
        NodeIn n (allocTreeList es s n).2.2 nd)
  | [], s, n => by
      refine ⟨Nat.le_refl n, fun a _ => rfl, by simp [allocTreeList], ?_⟩
      intro a h1 h2
      simp only [allocTreeList] at h2
      omega
  | v :: t, s, n => by
      obtain ⟨hle1, hframe1, hval1, hregion1⟩ := allocTree_spec v s n
      obtain ⟨hle2, hframe2, hvals2, hregion2⟩ :=
        allocTreeList_spec t (allocTree v s n).2.1 (allocTree v s n).2.2
      simp only [allocTreeList]
      refine ⟨Nat.le_trans hle1 hle2, ?_, ?_, ?_⟩
      · intro a ha
        rw [hframe2, hframe1]
        · rcases ha with h | h
          · exact Or.inl h
          · exact Or.inr (Nat.le_trans hle2 h)
        · rcases ha with h | h
          · exact Or.inl (Nat.lt_of_lt_of_le h hle1)
          · exact Or.inr h
      · intro w hw
        rcases List.mem_cons.mp hw with he | ht
        · subst he
          exact HValIn_mono (Nat.le_refl n) hle2 hval1
        · exact HValIn_mono hle1 (Nat.le_refl _) (hvals2 w ht)
      · intro a h1 h2
        by_cases hc : a < (allocTree v s n).2.2
        · obtain ⟨nd, hnd, hin⟩ := hregion1 a h1 hc
          refine ⟨nd, ?_, NodeIn_mono (Nat.le_refl n) hle2 hin⟩
          rw [hframe2 a (Or.inl hc)]
          exact hnd
        · obtain ⟨nd, hnd, hin⟩ := hregion2 a (Nat.le_of_not_lt hc) h2
          exact ⟨nd, hnd, NodeIn_mono hle1 (Nat.le_refl _) hin⟩

theorem allocTreeFields_spec : ∀ (fs : List (String × JsVal)) (s : Store) (n : Nat),
    n ≤ (allocTreeFields fs s n).2.2 ∧
    (∀ a, a < n ∨ (allocTreeFields fs s n).2.2 ≤ a →
      (allocTreeFields fs s n).2.1 a = s a) ∧
    (∀ kv ∈ (allocTreeFields fs s n).1, HValIn n (allocTreeFields fs s n).2.2 kv.2) ∧
    (∀ a, n ≤ a → a < (allocTreeFields fs s n).2.2 →
      ∃ nd, (allocTreeFields fs s n).2.1 a = some nd ∧
        NodeIn n (allocTreeFields fs s n).2.2 nd)
  | [], s, n => by
      refine ⟨Nat.le_refl n, fun a _ => rfl, by simp [allocTreeFields], ?_⟩
      intro a h1 h2
      simp only [allocTreeFields] at h2
      omega
  | (k, v) :: t, s, n => by
      obtain ⟨hle1, hframe1, hval1, hregion1⟩ := allocTree_spec v s n
      obtain ⟨hle2, hframe2, hvals2, hregion2⟩ :=
        allocTreeFields_spec t (allocTree v s n).2.1 (allocTree v s n).2.2
      simp only [allocTreeFields]
      refine ⟨Nat.le_trans hle1 hle2, ?_, ?_, ?_⟩
      · intro a ha
        rw [hframe2, hframe1]
        · rcases ha with h | h
          · exact Or.inl h
          · exact Or.inr (Nat.le_trans hle2 h)
        · rcases ha with h | h
          · exact Or.inl (Nat.lt_of_lt_of_le h hle1)
          · exact Or.inr h
      · intro kv hkv
        rcases List.mem_cons.mp hkv with he | ht
        · subst he
          exact HValIn_mono (Nat.le_refl n) hle2 hval1
        · exact HValIn_mono hle1 (Nat.le_refl _) (hvals2 kv ht)
      · intro a h1 h2
        by_cases hc : a < (allocTree v s n).2.2
        · obtain ⟨nd, hnd, hin⟩ := hregion1 a h1 hc
          refine ⟨nd, ?_, NodeIn_mono (Nat.le_refl n) hle2 hin⟩
          rw [hframe2 a (Or.inl hc)]
          exact hnd
        · obtain ⟨nd, hnd, hin⟩ := hregion2 a (Nat.le_of_not_lt hc) h2
          exact ⟨nd, hnd, NodeIn_mono hle1 (Nat.le_refl _) hin⟩

end

mutual

/-- Nesting depth of a tree: the fuel `heightJ t + 1` always suffices to
read back an allocation of `t`. -/
def heightJ : JsVal → Nat
  | .null => 0
  | .bool _ => 0
  | .num _ => 0
  | .str _ => 0
  | .arr es => heightListJ es + 1
  | .obj fs => heightFieldsJ fs + 1

/-- Maximum height of a list of trees. -/
def heightListJ : List JsVal → Nat
  | [] => 0
  | v :: t => max (heightJ v) (heightListJ t)

/-- Maximum height over an object's field values. -/
def heightFieldsJ : List (String × JsVal) → Nat
  | [] => 0
  | (_, v) :: t => max (heightJ v) (heightFieldsJ t)

end

theorem mapM_opt_congr {α β : Type} (f g : α → Option β) :
    ∀ l : List α, (∀ x ∈ l, f x = g x) → l.mapM f = l.mapM g := by
  intro l
  induction l with
  | nil => intro _; rfl
  | cons x t ih =>
      intro h
      simp only [List.mapM_cons]
      rw [h x (List.mem_cons_self x t), ih (fun y hy => h y (List.mem_cons_of_mem x hy))]

theorem readback_null (f : Nat) (s : Store) : readback f s .null = some .null := by
  cases f with
  | zero => rfl
  | succ n => rfl

theorem readback_bool (f : Nat) (s : Store) (b : Bool) :
    readback f s (.bool b) = some (.bool b) := by
  cases f with
  | zero => rfl
  | succ n => rfl

theorem readback_num (f : Nat) (s : Store) (n : Int) :
    readback f s (.num n) = some (.num n) := by
  cases f with
  | zero => rfl
  | succ m => rfl

theorem readback_str (f : Nat) (s : Store) (t : String) :
    readback f s (.str t) = some (.str t) := by
  cases f with
  | zero => rfl
  | succ n => rfl

theorem readback_mono :
    ∀ (f : Nat) (s : Store) (v : HVal) (x : JsVal), readback f s v = some x →
      ∀ f', f ≤ f' → readback f' s v = some x := by
  intro f
  induction f with
  | zero =>
      intro s v x h f' _
      cases v with
      | null => simpa [readback_null] using h
      | bool b => simpa [readback_bool] using h
      | num n => simpa [readback_num] using h
      | str t => simpa [readback_str] using h
      | ref a => simp [readback] at h
  | succ fn ih =>
      intro s v x h f' hf
      cases v with
      | null => simpa [readback_null] using h
      | bool b => simpa [readback_bool] using h
      | num n => simpa [readback_num] using h
      | str t => simpa [readback_str] using h
      | ref a =>
          obtain ⟨f'', rfl⟩ : ∃ f'', f' = f'' + 1 := by
            cases f' with
            | zero => exact absurd hf (by omega)
            | succ m => exact ⟨m, rfl⟩
          have hf'' : fn ≤ f'' := Nat.le_of_succ_le_succ hf
          simp only [readback] at h ⊢
          cases hnode : s a with
          | none => rw [hnode] at h; cases h
          | some nd =>
              rw [hnode] at h
              cases nd with
              | arrN es =>
                  dsimp only at h ⊢
                  simp only [Option.map_eq_some'] at h ⊢
                  obtain ⟨xs, hxs, rfl⟩ := h
                  refine ⟨xs, ?_, rfl⟩
                  clear hnode
                  induction es generalizing xs with
                  | nil => simpa using hxs
                  | cons e t iht =>
                      simp only [List.mapM_cons, Option.bind_eq_bind,
                        Option.bind_eq_some, Option.pure_def,
                        Option.some.injEq] at hxs ⊢
                      obtain ⟨y, hy, ys, hys, rfl⟩ := hxs
                      exact ⟨y, ih s e y hy f'' hf'', ys, iht ys hys, rfl⟩
              | objN fs =>
                  dsimp only at h ⊢
                  simp only [Option.map_eq_some'] at h ⊢
                  obtain ⟨xs, hxs, rfl⟩ := h
                  refine ⟨xs, ?_, rfl⟩
                  clear hnode
                  induction fs generalizing xs with
                  | nil => simpa using hxs
                  | cons e t iht =>
                      simp only [List.mapM_cons, Option.bind_eq_bind,
                        Option.bind_eq_some, Option.pure_def,
                        Option.some.injEq, Option.map_eq_some'] at hxs ⊢
                      obtain ⟨y, ⟨z, hz, rfl⟩, ys, hys, rfl⟩ := hxs
                      exact ⟨(e.1, z), ⟨z, ih s e.2 z hz f'' hf'', rfl⟩, ys,
                        iht ys hys, rfl⟩

theorem readback_region (lo hi : Nat) (s s' : Store)
    (hagree : ∀ a, lo ≤ a → a < hi → s' a = s a)
    (hclosed : ∀ a, lo ≤ a → a < hi → ∀ nd, s a = some nd → NodeIn lo hi nd) :
    ∀ (fuel : Nat) (v : HVal), HValIn lo hi v →
      readback fuel s' v = readback fuel s v := by
  intro fuel
  induction fuel with
  | zero =>
      intro v _
      cases v with
      | null => rfl
      | bool b => rfl
      | num n => rfl
      | str t => rfl
      | ref a => rfl
  | succ fn ih =>
      intro v hv
      cases v with
      | null => rfl
      | bool b => rfl
      | num n => rfl
      | str t => rfl
      | ref a =>
          obtain ⟨h1, h2⟩ := hv a rfl
          simp only [readback]
          rw [hagree a h1 h2]
          cases hnode : s a with
          | none => rfl
          | some nd =>
              have hin := hclosed a h1 h2 nd hnode
              cases nd with
              | arrN es =>
                  dsimp only
                  have : es.mapM (fun w => readback fn s' w)
                      = es.mapM (fun w => readback fn s w) :=
                    mapM_opt_congr _ _ es (fun w hw => ih w (hin w hw))
                  rw [this]
              | objN fs =>
                  dsimp only
                  have : fs.mapM (fun kv => (readback fn s' kv.2).map (fun x => (kv.1, x)))
                      = fs.mapM (fun kv => (readback fn s kv.2).map (fun x => (kv.1, x))) :=
                    mapM_opt_congr _ _ fs (fun kv hkv => by rw [ih kv.2 (hin kv hkv)])
                  rw [this]

theorem heightJ_le_of_mem_list {v : JsVal} :
    ∀ {es : List JsVal}, v ∈ es → heightJ v ≤ heightListJ es := by
  intro es
  induction es with
  | nil => intro h; simp at h
  | cons e t ih =>
      intro h
      rcases List.mem_cons.mp h with he | ht
      · subst he; exact Nat.le_max_left _ _
      · exact Nat.le_trans (ih ht) (by simp [heightListJ, Nat.le_max_right])

theorem heightJ_le_of_mem_fields {k : String} {v : JsVal} :
    ∀ {fs : List (String × JsVal)}, (k, v) ∈ fs → heightJ v ≤ heightFieldsJ fs := by
  intro fs
  induction fs with
  | nil => intro h; simp at h
  | cons e t ih =>
      intro h
      rcases List.mem_cons.mp h with he | ht
      · cases e
        cases he
        exact Nat.le_max_left _ _
      · cases e
        exact Nat.le_trans (ih ht) (by simp [heightFieldsJ, Nat.le_max_right])

theorem mapM_readback_mono (s : Store) :
    ∀ (l : List HVal) (xs : List JsVal) (f f' : Nat), f ≤ f' →
      l.mapM (fun v => readback f s v) = some xs →
      l.mapM (fun v => readback f' s v) = some xs := by
  intro l
  induction l with
  | nil => intro xs f f' _ h; simpa using h
  | cons v t ih =>
      intro xs f f' hf h
      simp only [List.mapM_cons, Option.bind_eq_bind, Option.bind_eq_some,
        Option.pure_def, Option.some.injEq] at h ⊢
      obtain ⟨y, hy, ys, hys, rfl⟩ := h
      exact ⟨y, readback_mono f s v y hy f' hf, ys, ih ys f f' hf hys, rfl⟩

theorem mapM_readback_fields_mono (s : Store) :
    ∀ (l : List (String × HVal)) (xs : List (String × JsVal)) (f f' : Nat), f ≤ f' →
      l.mapM (fun kv => (readback f s kv.2).map (fun x => (kv.1, x))) = some xs →
      l.mapM (fun kv => (readback f' s kv.2).map (fun x => (kv.1, x))) = some xs := by
  intro l
  induction l with
  | nil => intro xs f f' _ h; simpa using h
  | cons kv t ih =>
      intro xs f f' hf h
      simp only [List.mapM_cons, Option.bind_eq_bind, Option.bind_eq_some,
        Option.pure_def, Option.some.injEq, Option.map_eq_some'] at h ⊢
      obtain ⟨y, ⟨z, hz, rfl⟩, ys, hys, rfl⟩ := h
      exact ⟨(kv.1, z), ⟨z, readback_mono f s kv.2 z hz f' hf, rfl⟩, ys,
        ih ys f f' hf hys, rfl⟩

mutual

theorem allocTree_readback : ∀ (t : JsVal) (s : Store) (n : Nat),
    readback (heightJ t + 1) (allocTree t s n).2.1 (allocTree t s n).1 = some t
  | .null, s, n => by simp [allocTree, readback_null]
  | .bool b, s, n => by simp [allocTree, readback_bool]
  | .num m, s, n => by simp [allocTree, readback_num]
  | .str t, s, n => by simp [allocTree, readback_str]
  | .arr es, s, n => by
      obtain ⟨hle, hframe, hvals, hregion⟩ := allocTreeList_spec es s n
      have hlist := allocTreeList_readback es s n
      simp only [allocTree, heightJ, readback, storeSet_eq]
      have hcongr :
          (allocTreeList es s n).1.mapM (fun v =>
            readback (heightListJ es + 1)
              (storeSet (allocTreeList es s n).2.1 (allocTreeList es s n).2.2
                (.arrN (allocTreeList es s n).1)) v)
          = (allocTreeList es s n).1.mapM (fun v =>
            readback (heightListJ es + 1) (allocTreeList es s n).2.1 v) := by
        apply mapM_opt_congr
        intro v hv
        exact readback_region n (allocTreeList es s n).2.2 _ _
          (fun a h1 h2 => storeSet_ne _ _ _ _ (Nat.ne_of_lt h2))
          (fun a h1 h2 nd hnd => by
            obtain ⟨nd', hnd', hin⟩ := hregion a h1 h2
            rw [hnd'] at hnd
            cases hnd
            exact hin)
          _ v (hvals v hv)
      rw [hcongr, hlist]
      rfl
  | .obj fs, s, n => by
      obtain ⟨hle, hframe, hvals, hregion⟩ := allocTreeFields_spec fs s n
      have hlist := allocTreeFields_readback fs s n
      simp only [allocTree, heightJ, readback, storeSet_eq]
      have hcongr :
          (allocTreeFields fs s n).1.mapM (fun kv =>
            (readback (heightFieldsJ fs + 1)
              (storeSet (allocTreeFields fs s n).2.1 (allocTreeFields fs s n).2.2
                (.objN (allocTreeFields fs s n).1)) kv.2).map (fun x => (kv.1, x)))
          = (allocTreeFields fs s n).1.mapM (fun kv =>
            (readback (heightFieldsJ fs + 1) (allocTreeFields fs s n).2.1 kv.2).map
              (fun x => (kv.1, x))) := by
        apply mapM_opt_congr
        intro kv hkv
        rw [readback_region n (allocTreeFields fs s n).2.2 _ _
          (fun a h1 h2 => storeSet_ne _ _ _ _ (Nat.ne_of_lt h2))
          (fun a h1 h2 nd hnd => by
            obtain ⟨nd', hnd', hin⟩ := hregion a h1 h2
            rw [hnd'] at hnd
            cases hnd
            exact hin)
          _ kv.2 (hvals kv hkv)]
      rw [hcongr, hlist]
      rfl

theorem allocTreeList_readback : ∀ (es : List JsVal) (s : Store) (n : Nat),
    (allocTreeList es s n).1.mapM (fun v =>
      readback (heightListJ es + 1) (allocTreeList es s n).2.1 v) = some es
  | [], s, n => by
      simp only [allocTreeList]
      rfl
  | v :: t, s, n => by
      obtain ⟨hle1, hframe1, hval1, hregion1⟩ := allocTree_spec v s n
      obtain ⟨hle2, hframe2, hvals2, hregion2⟩ :=
        allocTreeList_spec t (allocTree v s n).2.1 (allocTree v s n).2.2
      have hhead := allocTree_readback v s n
      have htail := allocTreeList_readback t (allocTree v s n).2.1 (allocTree v s n).2.2
      simp only [allocTreeList, List.mapM_cons, Option.bind_eq_bind]
      have hheadlift :
          readback (heightJ v + 1)
            (allocTreeList t (allocTree v s n).2.1 (allocTree v s n).2.2).2.1
            (allocTree v s n).1 = some v := by
        rw [readback_region n (allocTree v s n).2.2 _ _
          (fun a h1 h2 => hframe2 a (Or.inl h2))
          (fun a h1 h2 nd hnd => by
            obtain ⟨nd', hnd', hin⟩ := hregion1 a h1 h2
            rw [hnd'] at hnd
            cases hnd
            exact hin)
          _ (allocTree v s n).1 hval1]
        exact hhead
      have hheadmono := readback_mono _ _ _ _ hheadlift (heightListJ (v :: t) + 1)
        (by simp [heightListJ])
      have htailmono := mapM_readback_mono _ _ _ _ (heightListJ (v :: t) + 1)
        (by simp [heightListJ]) htail
      rw [hheadmono, htailmono]
      rfl

theorem allocTreeFields_readback : ∀ (fs : List (String × JsVal)) (s : Store) (n : Nat),
    (allocTreeFields fs s n).1.mapM (fun kv =>
      (readback (heightFieldsJ fs + 1) (allocTreeFields fs s n).2.1 kv.2).map
        (fun x => (kv.1, x))) = some fs
  | [], s, n => by
      simp only [allocTreeFields]
      rfl
  | (k, v) :: t, s, n => by
      obtain ⟨hle1, hframe1, hval1, hregion1⟩ := allocTree_spec v s n
      obtain ⟨hle2, hframe2, hvals2, hregion2⟩ :=
        allocTreeFields_spec t (allocTree v s n).2.1 (allocTree v s n).2.2
      have hhead := allocTree_readback v s n
      have htail := allocTreeFields_readback t (allocTree v s n).2.1 (allocTree v s n).2.2
      simp only [allocTreeFields, List.mapM_cons, Option.bind_eq_bind]
      have hheadlift :
          readback (heightJ v + 1)
            (allocTreeFields t (allocTree v s n).2.1 (allocTree v s n).2.2).2.1
            (allocTree v s n).1 = some v := by
        rw [readback_region n (allocTree v s n).2.2 _ _
          (fun a h1 h2 => hframe2 a (Or.inl h2))
          (fun a h1 h2 nd hnd => by
            obtain ⟨nd', hnd', hin⟩ := hregion1 a h1 h2
            rw [hnd'] at hnd
            cases hnd
            exact hin)
          _ (allocTree v s n).1 hval1]
        exact hhead
      have hheadmono := readback_mono _ _ _ _ hheadlift (heightFieldsJ ((k, v) :: t) + 1)
        (by simp [heightFieldsJ])
      have htailmono := mapM_readback_fields_mono _ _ _ _ (heightFieldsJ ((k, v) :: t) + 1)
        (by simp [heightFieldsJ]) htail
      rw [hheadmono, htailmono]
      rfl

end

/-! ## Frame lemmas for the heap operations

Every address the overlay operations write lies at or above the bound `B`
below which the original document was allocated, provided they start from a
root and a value whose references lie at or above `B` in a `B`-closed
store. -/

theorem getF_mem {α : Type} :
    ∀ (l : List (String × α)) (k : String) (v : α), getF l k = some v → (k, v) ∈ l := by
  intro l
  induction l with
  | nil => intro k v h; simp [getF] at h
  | cons hd t ih =>
      intro k v h
      by_cases hh : hd.1 = k
      · simp only [getF, if_pos hh, Option.some.injEq] at h
        subst h
        subst hh
        exact List.mem_cons_self _ _
      · simp only [getF, if_neg hh] at h
        exact List.mem_cons_of_mem hd (ih k v h)

theorem putF_forall {α : Type} (P : α → Prop) :
    ∀ (fs : List (String × α)) (k : String) (v : α),
      (∀ kv ∈ fs, P kv.2) → P v → ∀ kv ∈ putF fs k v, P kv.2 := by
  intro fs
  induction fs with
  | nil =>
      intro k v _ hv kv hkv
      simp only [putF, List.mem_singleton] at hkv
      subst hkv
      exact hv
  | cons hd t ih =>
      intro k v hfs hv kv hkv
      by_cases hh : hd.1 = k
      · simp only [putF, if_pos hh] at hkv
        rcases List.mem_cons.mp hkv with he | ht
        · subst he; exact hv
        · exact hfs kv (List.mem_cons_of_mem hd ht)
      · simp only [putF, if_neg hh] at hkv
        rcases List.mem_cons.mp hkv with he | ht
        · subst he; exact hfs hd (List.mem_cons_self hd t)
        · exact ih k v (fun x hx => hfs x (List.mem_cons_of_mem hd hx)) hv kv ht

theorem delF_forall {α : Type} (P : α → Prop) :
    ∀ (fs : List (String × α)) (k : String),
      (∀ kv ∈ fs, P kv.2) → ∀ kv ∈ delF fs k, P kv.2 := by
  intro fs
  induction fs with
  | nil => intro k _ kv hkv; simp [delF] at hkv
  | cons hd t ih =>
      intro k hfs kv hkv
      by_cases hh : hd.1 = k
      · simp only [delF, if_pos hh] at hkv
        exact hfs kv (List.mem_cons_of_mem hd hkv)
      · simp only [delF, if_neg hh] at hkv
        rcases List.mem_cons.mp hkv with he | ht
        · subst he; exact hfs hd (List.mem_cons_self hd t)
        · exact ih k (fun x hx => hfs x (List.mem_cons_of_mem hd hx)) kv ht

theorem set_forall {α : Type} (P : α → Prop) (es : List α) (i : Nat) (v : α)
    (hes : ∀ x ∈ es, P x) (hv : P v) : ∀ x ∈ es.set i v, P x := by
  intro x hx
  rcases List.mem_or_eq_of_mem_set hx with h | h
  · exact hes x h
  · subst h; exact hv

theorem getD_elem_forall {α : Type} (P : α → Prop) (es : List α) (i : Nat) (d : α)
    (hes : ∀ x ∈ es, P x) (hd : P d) : P (es.getD i d) := by
  unfold List.getD
  cases hg : es.get? i with
  | none => exact hd
  | some x => exact hes x (List.get?_mem hg)

theorem spreadValH_hi (B : Nat) (s : Store) (v : HVal)
    (hs : HiClosed B s) (hv : HValHi B v) :
    ∀ kv ∈ spreadValH s v, HValHi B kv.2 := by
  cases v with
  | ref a =>
      have hBa := hv a rfl
      cases hnode : s a with
      | none => simp [spreadValH, hnode]
      | some nd =>
          cases nd with
          | objN fs =>
              intro kv hkv
              simp only [spreadValH, hnode] at hkv
              exact hs a (.objN fs) hBa hnode kv hkv
          | arrN es => simp [spreadValH, hnode]
  | null => simp [spreadValH]
  | bool b => simp [spreadValH]
  | num n => simp [spreadValH]
  | str t => simp [spreadValH]

theorem spreadMerge_forall {α : Type} (P : α → Prop) (xs ys : List (String × α))
    (hxs : ∀ kv ∈ xs, P kv.2) (hys : ∀ kv ∈ ys, P kv.2) :
    ∀ kv ∈ spreadMerge xs ys, P kv.2 := by
  intro kv hkv
  unfold spreadMerge at hkv
  rcases List.mem_append.mp hkv with h | h
  · rcases List.mem_map.mp h with ⟨kv', hkv', heq⟩
    subst heq
    cases hg : getF ys kv'.1 with
    | none => simpa [hg] using hxs kv' hkv'
    | some w => simpa [hg] using hys (kv'.1, w) (getF_mem ys kv'.1 w hg)
  · exact hys kv (List.mem_of_mem_filter h)

theorem hvalHi_ref {B next : Nat} (h : B ≤ next) : HValHi B (.ref next) := by
  intro x hx
  cases hx
  exact h

theorem setLeafH_frame (B : Nat) (s : Store) (next : Nat) (cur : HVal)
    (lastPart : String) (value : HVal)
    (hs : HiClosed B s) (hn : B ≤ next) (hc : HValHi B cur) (hv : HValHi B value) :
    ∀ st' n' err, setLeafH s next cur lastPart value = (st', n', err) →
      (∀ a, a < B → st' a = s a) ∧ HiClosed B st' ∧ B ≤ n' := by
  intro st' n' err hEq
  unfold setLeafH at hEq
  cases cur with
  | null => cases hEq; exact ⟨fun a _ => rfl, hs, hn⟩
  | bool b => cases hEq; exact ⟨fun a _ => rfl, hs, hn⟩
  | num m => cases hEq; exact ⟨fun a _ => rfl, hs, hn⟩
  | str t => cases hEq; exact ⟨fun a _ => rfl, hs, hn⟩
  | ref a =>
      have hBa : B ≤ a := hc a rfl
      dsimp only at hEq
      cases hnode : s a with
      | none =>
          rw [hnode] at hEq
          cases hEq
          exact ⟨fun a' _ => rfl, hs, hn⟩
      | some nd =>
          rw [hnode] at hEq
          cases nd with
          | objN fs =>
              dsimp only at hEq
              have hfs : ∀ kv ∈ fs, HValHi B kv.2 := hs a (.objN fs) hBa hnode
              have hleaf : HValHi B ((getF fs lastPart).getD .null) := by
                cases hg : getF fs lastPart with
                | none => intro x hx; cases hx
                | some w => exact hfs (lastPart, w) (getF_mem fs lastPart w hg)
              by_cases hm : mergeCondH s (getF fs lastPart) value = true
              · rw [if_pos hm] at hEq
                cases hEq
                refine ⟨?_, ?_, Nat.le_succ_of_le hn⟩
                · intro a' ha'
                  rw [storeSet_ne _ _ _ _ (Nat.ne_of_lt (Nat.lt_of_lt_of_le ha' hBa)),
                    storeSet_ne _ _ _ _ (Nat.ne_of_lt (Nat.lt_of_lt_of_le ha' hn))]
                · intro a'' nd'' hB'' hnd''
                  by_cases h1 : a'' = a
                  · subst h1
                    rw [storeSet_eq] at hnd''
                    cases hnd''
                    exact putF_forall (HValHi B) fs lastPart (.ref next) hfs
                      (hvalHi_ref hn)
                  · rw [storeSet_ne _ _ _ _ h1] at hnd''
                    by_cases h2 : a'' = next
                    · subst h2
                      rw [storeSet_eq] at hnd''
                      cases hnd''
                      exact spreadMerge_forall (HValHi B) _ _
                        (spreadValH_hi B s _ hs hleaf)
                        (spreadValH_hi B s value hs hv)
                    · rw [storeSet_ne _ _ _ _ h2] at hnd''
                      exact hs a'' nd'' hB'' hnd''
              · rw [if_neg hm] at hEq
                cases hEq
                refine ⟨?_, ?_, hn⟩
                · intro a' ha'
                  rw [storeSet_ne _ _ _ _ (Nat.ne_of_lt (Nat.lt_of_lt_of_le ha' hBa))]
                · intro a'' nd'' hB'' hnd''
                  by_cases h1 : a'' = a
                  · subst h1
                    rw [storeSet_eq] at hnd''
                    cases hnd''
                    exact putF_forall (HValHi B) fs lastPart value hfs hv
                  · rw [storeSet_ne _ _ _ _ h1] at hnd''
                    exact hs a'' nd'' hB'' hnd''
          | arrN es =>
              dsimp only at hEq
              have hes : ∀ w ∈ es, HValHi B w := hs a (.arrN es) hBa hnode
              cases hp : parseIndex es.length lastPart with
              | none =>
                  rw [hp] at hEq
                  cases hEq
                  exact ⟨fun a' _ => rfl, hs, hn⟩
              | some i =>
                  rw [hp] at hEq
                  dsimp only at hEq
                  have hleaf : HValHi B (es.getD i .null) :=
                    getD_elem_forall (HValHi B) es i .null hes
                      (fun x hx => by cases hx)
                  by_cases hm : mergeCondH s (some (es.getD i .null)) value = true
                  · rw [if_pos hm] at hEq
                    cases hEq
                    refine ⟨?_, ?_, Nat.le_succ_of_le hn⟩
                    · intro a' ha'
                      rw [storeSet_ne _ _ _ _ (Nat.ne_of_lt (Nat.lt_of_lt_of_le ha' hBa)),
                        storeSet_ne _ _ _ _ (Nat.ne_of_lt (Nat.lt_of_lt_of_le ha' hn))]
                    · intro a'' nd'' hB'' hnd''
                      by_cases h1 : a'' = a
                      · subst h1
                        rw [storeSet_eq] at hnd''
                        cases hnd''
                        exact set_forall (HValHi B) es i (.ref next) hes
                          (hvalHi_ref hn)
                      · rw [storeSet_ne _ _ _ _ h1] at hnd''
                        by_cases h2 : a'' = next
                        · subst h2
                          rw [storeSet_eq] at hnd''
                          cases hnd''
                          exact spreadMerge_forall (HValHi B) _ _
                            (spreadValH_hi B s _ hs hleaf)
                            (spreadValH_hi B s value hs hv)
                        · rw [storeSet_ne _ _ _ _ h2] at hnd''
                          exact hs a'' nd'' hB'' hnd''
                  · rw [if_neg hm] at hEq
                    cases hEq
                    refine ⟨?_, ?_, hn⟩
                    · intro a' ha'
                      rw [storeSet_ne _ _ _ _ (Nat.ne_of_lt (Nat.lt_of_lt_of_le ha' hBa))]
                    · intro a'' nd'' hB'' hnd''
                      by_cases h1 : a'' = a
                      · subst h1
                        rw [storeSet_eq] at hnd''
                        cases hnd''
                        exact set_forall (HValHi B) es i value hes hv
                      · rw [storeSet_ne _ _ _ _ h1] at hnd''
                        exact hs a'' nd'' hB'' hnd''

theorem setPartsH_frame (B : Nat) :
    ∀ (parts : List String) (s : Store) (next : Nat) (cur : HVal)
      (lastPart : String) (value : HVal),
      HiClosed B s → B ≤ next → HValHi B cur → HValHi B value →
      ∀ st' n' err, setPartsH s next cur parts lastPart value = (st', n', err) →
        (∀ a, a < B → st' a = s a) ∧ HiClosed B st' ∧ B ≤ n' := by
  intro parts
  induction parts with
  | nil =>
      intro s next cur lastPart value hs hn hc hv st' n' err hEq
      exact setLeafH_frame B s next cur lastPart value hs hn hc hv st' n' err hEq
  | cons p rest ih =>
      intro s next cur lastPart value hs hn hc hv st' n' err hEq
      unfold setPartsH at hEq
      cases cur with
      | null => cases hEq; exact ⟨fun a _ => rfl, hs, hn⟩
      | bool b => cases hEq; exact ⟨fun a _ => rfl, hs, hn⟩
      | num m => cases hEq; exact ⟨fun a _ => rfl, hs, hn⟩
      | str t => cases hEq; exact ⟨fun a _ => rfl, hs, hn⟩
      | ref a =>
          have hBa : B ≤ a := hc a rfl
          dsimp only at hEq
          cases hnode : s a with
          | none =>
              rw [hnode] at hEq
              cases hEq
              exact ⟨fun a' _ => rfl, hs, hn⟩
          | some nd =>
              rw [hnode] at hEq
              cases nd with
              | objN fs =>
                  dsimp only at hEq
                  have hfs : ∀ kv ∈ fs, HValHi B kv.2 := hs a (.objN fs) hBa hnode
                  cases hchild : getF fs p with
                  | some child =>
                      rw [hchild] at hEq
                      exact ih s next child lastPart value hs hn
                        (hfs (p, child) (getF_mem fs p child hchild)) hv st' n' err hEq
                  | none =>
                      rw [hchild] at hEq
                      have hs2 : HiClosed B
                          (storeSet (storeSet s next (.objN [])) a
                            (.objN (putF fs p (.ref next)))) := by
                        intro a'' nd'' hB'' hnd''
                        by_cases h1 : a'' = a
                        · subst h1
                          rw [storeSet_eq] at hnd''
                          cases hnd''
                          exact putF_forall (HValHi B) fs p (.ref next) hfs
                            (hvalHi_ref hn)
                        · rw [storeSet_ne _ _ _ _ h1] at hnd''
                          by_cases h2 : a'' = next
                          · subst h2
                            rw [storeSet_eq] at hnd''
                            cases hnd''
                            intro kv hkv
                            simp at hkv
                          · rw [storeSet_ne _ _ _ _ h2] at hnd''
                            exact hs a'' nd'' hB'' hnd''
                      obtain ⟨hf, hcl, hnn⟩ := ih _ (next + 1) (.ref next) lastPart value
                        hs2 (Nat.le_succ_of_le hn) (hvalHi_ref hn) hv st' n' err hEq
                      refine ⟨?_, hcl, hnn⟩
                      intro a' ha'
                      rw [hf a' ha',
                        storeSet_ne _ _ _ _ (Nat.ne_of_lt (Nat.lt_of_lt_of_le ha' hBa)),
                        storeSet_ne _ _ _ _ (Nat.ne_of_lt (Nat.lt_of_lt_of_le ha' hn))]
              | arrN es =>
                  dsimp only at hEq
                  have hes : ∀ w ∈ es, HValHi B w := hs a (.arrN es) hBa hnode
                  cases hp : parseIndex es.length p with
                  | some i =>
                      rw [hp] at hEq
                      exact ih s next (es.getD i .null) lastPart value hs hn
                        (getD_elem_forall (HValHi B) es i .null hes
                          (fun x hx => by cases hx)) hv st' n' err hEq
                  | none =>
                      rw [hp] at hEq
                      cases hEq
                      exact ⟨fun a' _ => rfl, hs, hn⟩

theorem removePartsH_frame (B : Nat) :
    ∀ (parts : List String) (s : Store) (cur : HVal) (lastPart : String),
      HiClosed B s → HValHi B cur →
      ∀ st' err, removePartsH s cur parts lastPart = (st', err) →
        (∀ a, a < B → st' a = s a) ∧ HiClosed B st' := by
  intro parts
  induction parts with
  | nil =>
      intro s cur lastPart hs hc st' err hEq
      unfold removePartsH at hEq
      cases cur with
      | null => cases hEq; exact ⟨fun a _ => rfl, hs⟩
      | bool b => cases hEq; exact ⟨fun a _ => rfl, hs⟩
      | num m => cases hEq; exact ⟨fun a _ => rfl, hs⟩
      | str t => cases hEq; exact ⟨fun a _ => rfl, hs⟩
      | ref a =>
          have hBa : B ≤ a := hc a rfl
          dsimp only at hEq
          cases hnode : s a with
          | none =>
              rw [hnode] at hEq
              cases hEq
              exact ⟨fun a' _ => rfl, hs⟩
          | some nd =>
              rw [hnode] at hEq
              cases nd with
              | objN fs =>
                  dsimp only at hEq
                  cases hEq
                  have hfs : ∀ kv ∈ fs, HValHi B kv.2 := hs a (.objN fs) hBa hnode
                  refine ⟨?_, ?_⟩
                  · intro a' ha'
                    rw [storeSet_ne _ _ _ _ (Nat.ne_of_lt (Nat.lt_of_lt_of_le ha' hBa))]
                  · intro a'' nd'' hB'' hnd''
                    by_cases h1 : a'' = a
                    · subst h1
                      rw [storeSet_eq] at hnd''
                      cases hnd''
                      exact delF_forall (HValHi B) fs lastPart hfs
                    · rw [storeSet_ne _ _ _ _ h1] at hnd''
                      exact hs a'' nd'' hB'' hnd''
              | arrN es =>
                  dsimp only at hEq
                  cases hp : parseIndex es.length lastPart with
                  | some i =>
                      rw [hp] at hEq
                      cases hEq
                      exact ⟨fun a' _ => rfl, hs⟩
                  | none =>
                      rw [hp] at hEq
                      cases hEq
                      exact ⟨fun a' _ => rfl, hs⟩
  | cons p rest ih =>
      intro s cur lastPart hs hc st' err hEq
      unfold removePartsH at hEq
      cases cur with
      | null => cases hEq; exact ⟨fun a _ => rfl, hs⟩
      | bool b => cases hEq; exact ⟨fun a _ => rfl, hs⟩
      | num m => cases hEq; exact ⟨fun a _ => rfl, hs⟩
      | str t => cases hEq; exact ⟨fun a _ => rfl, hs⟩
      | ref a =>
          have hBa : B ≤ a := hc a rfl
          dsimp only at hEq
          cases hnode : s a with
          | none =>
              rw [hnode] at hEq
              cases hEq
              exact ⟨fun a' _ => rfl, hs⟩
          | some nd =>
              rw [hnode] at hEq
              cases nd with
              | objN fs =>
                  dsimp only at hEq
                  have hfs : ∀ kv ∈ fs, HValHi B kv.2 := hs a (.objN fs) hBa hnode
                  cases hchild : getF fs p with
                  | some child =>
                      rw [hchild] at hEq
                      exact ih s child lastPart hs
                        (hfs (p, child) (getF_mem fs p child hchild)) st' err hEq
                  | none =>
                      rw [hchild] at hEq
                      cases hEq
                      exact ⟨fun a' _ => rfl, hs⟩
              | arrN es =>
                  dsimp only at hEq
                  have hes : ∀ w ∈ es, HValHi B w := hs a (.arrN es) hBa hnode
                  cases hp : parseIndex es.length p with
                  | some i =>
                      rw [hp] at hEq
                      exact ih s (es.getD i .null) lastPart hs
                        (getD_elem_forall (HValHi B) es i .null hes
                          (fun x hx => by cases hx)) st' err hEq
                  | none =>
                      rw [hp] at hEq
                      cases hEq
                      exact ⟨fun a' _ => rfl, hs⟩

theorem renamePartsH_frame (B : Nat) :
    ∀ (parts : List String) (s : Store) (cur : HVal) (oldName newName : String),
      HiClosed B s → HValHi B cur →
      ∀ st' b err, renamePartsH s cur parts oldName newName = (st', b, err) →
        (∀ a, a < B → st' a = s a) ∧ HiClosed B st' := by
  intro parts
  induction parts with
  | nil =>
      intro s cur oldName newName hs hc st' b err hEq
      unfold renamePartsH at hEq
      cases cur with
      | null => cases hEq; exact ⟨fun a _ => rfl, hs⟩
      | bool bb => cases hEq; exact ⟨fun a _ => rfl, hs⟩
      | num m => cases hEq; exact ⟨fun a _ => rfl, hs⟩
      | str t => cases hEq; exact ⟨fun a _ => rfl, hs⟩
      | ref a =>
          have hBa : B ≤ a := hc a rfl
          dsimp only at hEq
          cases hnode : s a with
          | none =>
              rw [hnode] at hEq
              cases hEq
              exact ⟨fun a' _ => rfl, hs⟩
          | some nd =>
              rw [hnode] at hEq
              cases nd with
              | objN fs =>
                  dsimp only at hEq
                  have hfs : ∀ kv ∈ fs, HValHi B kv.2 := hs a (.objN fs) hBa hnode
                  cases hold : getF fs oldName with
                  | some v =>
                      rw [hold] at hEq
                      cases hEq
                      refine ⟨?_, ?_⟩
                      · intro a' ha'
                        rw [storeSet_ne _ _ _ _
                          (Nat.ne_of_lt (Nat.lt_of_lt_of_le ha' hBa))]
                      · intro a'' nd'' hB'' hnd''
                        by_cases h1 : a'' = a
                        · subst h1
                          rw [storeSet_eq] at hnd''
                          cases hnd''
                          exact delF_forall (HValHi B) _ oldName
                            (putF_forall (HValHi B) fs newName v hfs
                              (hfs (oldName, v) (getF_mem fs oldName v hold)))
                        · rw [storeSet_ne _ _ _ _ h1] at hnd''
                          exact hs a'' nd'' hB'' hnd''
                  | none =>
                      rw [hold] at hEq
                      cases hEq
                      exact ⟨fun a' _ => rfl, hs⟩
              | arrN es =>
                  dsimp only at hEq
                  cases hp : parseIndex es.length oldName with
                  | some i =>
                      rw [hp] at hEq
                      cases hEq
                      exact ⟨fun a' _ => rfl, hs⟩
                  | none =>
                      rw [hp] at hEq
                      cases hEq
                      exact ⟨fun a' _ => rfl, hs⟩
  | cons p rest ih =>
      intro s cur oldName newName hs hc st' b err hEq
      unfold renamePartsH at hEq
      cases cur with
      | null => cases hEq; exact ⟨fun a _ => rfl, hs⟩
      | bool bb => cases hEq; exact ⟨fun a _ => rfl, hs⟩
      | num m => cases hEq; exact ⟨fun a _ => rfl, hs⟩
      | str t => cases hEq; exact ⟨fun a _ => rfl, hs⟩
      | ref a =>
          have hBa : B ≤ a := hc a rfl
          dsimp only at hEq
          cases hnode : s a with
          | none =>
              rw [hnode] at hEq
              cases hEq
              exact ⟨fun a' _ => rfl, hs⟩
          | some nd =>
              rw [hnode] at hEq
              cases nd with
              | objN fs =>
                  dsimp only at hEq
                  have hfs : ∀ kv ∈ fs, HValHi B kv.2 := hs a (.objN fs) hBa hnode
                  cases hchild : getF fs p with
                  | some child =>
                      rw [hchild] at hEq
                      exact ih s child oldName newName hs
                        (hfs (p, child) (getF_mem fs p child hchild)) st' b err hEq
                  | none =>
                      rw [hchild] at hEq
                      cases hEq
                      exact ⟨fun a' _ => rfl, hs⟩
              | arrN es =>
                  dsimp only at hEq
                  have hes : ∀ w ∈ es, HValHi B w := hs a (.arrN es) hBa hnode
                  cases hp : parseIndex es.length p with
                  | some i =>
                      rw [hp] at hEq
                      exact ih s (es.getD i .null) oldName newName hs
                        (getD_elem_forall (HValHi B) es i .null hes
                          (fun x hx => by cases hx)) st' b err hEq
                  | none =>
                      rw [hp] at hEq
                      cases hEq
                      exact ⟨fun a' _ => rfl, hs⟩

theorem setAtPathH_frame (B : Nat) (s : Store) (next : Nat) (root : HVal)
    (path : String) (value : HVal)
    (hs : HiClosed B s) (hn : B ≤ next) (hr : HValHi B root) (hv : HValHi B value) :
    ∀ st' n' err, setAtPathH s next root path value = (st', n', err) →
      (∀ a, a < B → st' a = s a) ∧ HiClosed B st' ∧ B ≤ n' := by
  intro st' n' err hEq
  unfold setAtPathH at hEq
  exact setPartsH_frame B (pathParts path).dropLast s next root
    ((pathParts path).getLastD "") value hs hn hr hv st' n' err hEq

theorem removeAtPathH_frame (B : Nat) (s : Store) (root : HVal) (path : String)
    (hs : HiClosed B s) (hr : HValHi B root) :
    ∀ st' err, removeAtPathH s root path = (st', err) →
      (∀ a, a < B → st' a = s a) ∧ HiClosed B st' := by
  intro st' err hEq
  unfold removeAtPathH at hEq
  exact removePartsH_frame B (pathParts path).dropLast s root
    ((pathParts path).getLastD "") hs hr st' err hEq

theorem renameAtPathH_frame (B : Nat) (s : Store) (root : HVal)
    (path newName : String)
    (hs : HiClosed B s) (hr : HValHi B root) :
    ∀ st' b err, renameAtPathH s root path newName = (st', b, err) →
      (∀ a, a < B → st' a = s a) ∧ HiClosed B st' := by
  intro st' b err hEq
  unfold renameAtPathH at hEq
  exact renamePartsH_frame B (pathParts path).dropLast s root
    ((pathParts path).getLastD "") newName hs hr st' b err hEq

theorem NodeHi_of_NodeIn_ge {B lo hi : Nat} {nd : HNode} (h : NodeIn lo hi nd)
    (hB : B ≤ lo) : NodeHi B nd := by
  cases nd with
  | arrN es => exact fun v hv a ha => Nat.le_trans hB ((h v hv) a ha).1
  | objN fs => exact fun kv hkv a ha => Nat.le_trans hB ((h kv hkv) a ha).1

theorem allocTree_hiClosed (B : Nat) (t : JsVal) (s : Store) (n : Nat)
    (hs : HiClosed B s) (hn : B ≤ n) : HiClosed B (allocTree t s n).2.1 := by
  obtain ⟨hle, hframe, hval, hregion⟩ := allocTree_spec t s n
  intro a nd hB hnd
  by_cases h1 : a < n
  · rw [hframe a (Or.inl h1)] at hnd
    exact hs a nd hB hnd
  · by_cases h2 : a < (allocTree t s n).2.2
    · obtain ⟨nd', hnd', hin⟩ := hregion a (Nat.le_of_not_lt h1) h2
      rw [hnd'] at hnd
      cases hnd
      exact NodeHi_of_NodeIn_ge hin hn
    · rw [hframe a (Or.inr (Nat.le_of_not_lt h2))] at hnd
      exact hs a nd hB hnd

theorem applyActionH_frame (B : Nat) (s : Store) (next : Nat) (root : HVal)
    (action : OverlayActionH) (warnings : List String)
    (hs : HiClosed B s) (hn : B ≤ next) (hr : HValHi B root)
    (hu : ∀ v, action.update = some v → HValHi B v) :
    ∀ st' n' ws' err, applyActionH s next root action warnings = (st', n', ws', err) →
      (∀ a, a < B → st' a = s a) ∧ HiClosed B st' ∧ B ≤ n' := by
  intro st' n' ws' err hEq
  unfold applyActionH at hEq
  by_cases ht : targetFalsy action.target = true
  · rw [if_pos ht] at hEq
    cases hEq
    exact ⟨fun a _ => rfl, hs, hn⟩
  · rw [if_neg ht] at hEq
    dsimp only at hEq
    by_cases hroot : rootExistsH s root (action.target.getD "") = false
    · rw [if_pos hroot] at hEq
      cases hEq
      exact ⟨fun a _ => rfl, hs, hn⟩
    · rw [if_neg hroot] at hEq
      by_cases hrm : action.remove = some (.bool true)
      · rw [if_pos hrm] at hEq
        cases hrmv : removeAtPathH s root (action.target.getD "") with
        | mk s1 err1 =>
            rw [hrmv] at hEq
            cases hEq
            obtain ⟨hf, hcl⟩ := removeAtPathH_frame B s root (action.target.getD "")
              hs hr s1 err1 hrmv
            exact ⟨hf, hcl, hn⟩
      · rw [if_neg hrm] at hEq
        cases hrn : action.rename with
        | some newName =>
            rw [hrn] at hEq
            dsimp only at hEq
            cases hrnv : renameAtPathH s root (action.target.getD "") newName with
            | mk s1 rest =>
                cases rest with
                | mk b1 err1 =>
                    rw [hrnv] at hEq
                    obtain ⟨hf, hcl⟩ := renameAtPathH_frame B s root
                      (action.target.getD "") newName hs hr s1 b1 err1 hrnv
                    cases err1 with
                    | none =>
                        dsimp only at hEq
                        cases hEq
                        exact ⟨hf, hcl, hn⟩
                    | some e =>
                        dsimp only at hEq
                        cases hEq
                        exact ⟨hf, hcl, hn⟩
        | none =>
            rw [hrn] at hEq
            cases hup : action.update with
            | some v =>
                rw [hup] at hEq
                dsimp only at hEq
                cases hsv : setAtPathH s next root (action.target.getD "") v with
                | mk s1 rest =>
                    cases rest with
                    | mk n1 err1 =>
                        rw [hsv] at hEq
                        cases hEq
                        exact setAtPathH_frame B s next root (action.target.getD "") v
                          hs hn hr (hu v hup) s1 n1 err1 hsv
            | none =>
                rw [hup] at hEq
                cases hEq
                exact ⟨fun a _ => rfl, hs, hn⟩

theorem applyActionsH_frame (B : Nat) :
    ∀ (acts : List OverlayActionH) (s : Store) (next : Nat) (root : HVal)
      (ws : List String),
      HiClosed B s → B ≤ next → HValHi B root →
      (∀ act ∈ acts, ∀ v, act.update = some v → HValHi B v) →
      (∀ a, a < B → (applyActionsH s next root acts ws).1 a = s a) := by
  intro acts
  induction acts with
  | nil => intro s next root ws _ _ _ _ a _; rfl
  | cons act rest ih =>
      intro s next root ws hs hn hr hu a ha
      unfold applyActionsH
      cases hstep : applyActionH s next root act ws with
      | mk s1 rest1 =>
          cases rest1 with
          | mk n1 rest2 =>
              cases rest2 with
              | mk ws1 err1 =>
                  obtain ⟨hf, hcl, hnn⟩ := applyActionH_frame B s next root act ws
                    hs hn hr (hu act (List.mem_cons_self act rest)) s1 n1 ws1 err1 hstep
                  cases err1 with
                  | none =>
                      dsimp only
                      rw [ih s1 n1 root ws1 hcl hnn hr
                        (fun x hx => hu x (List.mem_cons_of_mem act hx)) a ha]
                      exact hf a ha
                  | some e =>
                      dsimp only
                      exact hf a ha

/-! ## Building a heap from independently parsed documents

A document and an overlay that come from separate sources (separate files
parsed separately) occupy disjoint heap regions; `allocOverlay` lays an
overlay's payload values out above a given base, exactly as a parser
would. -/

/-- Allocate one optional action payload. -/
def allocActionPayload (v : Option JsVal) (s : Store) (n : Nat) :
    Option HVal × Store × Nat :=
  match v with
  | some t =>
      let r := allocTree t s n
      (some r.1, r.2.1, r.2.2)
  | none => (none, s, n)

/-- Allocate one overlay action's payloads (`update` and `remove`). -/
def allocAction (a : OverlayAction) (s : Store) (n : Nat) :
    OverlayActionH × Store × Nat :=
  let ru := allocActionPayload a.update s n
  let rr := allocActionPayload a.remove ru.2.1 ru.2.2
  (⟨a.target, ru.1, rr.1, a.rename, a.description⟩, rr.2.1, rr.2.2)

/-- Allocate a list of overlay actions left to right. -/
def allocActions : List OverlayAction → Store → Nat → List OverlayActionH × Store × Nat
  | [], s, n => ([], s, n)
  | a :: t, s, n =>
      let r := allocAction a s n
      let rt := allocActions t r.2.1 r.2.2
      (r.1 :: rt.1, rt.2.1, rt.2.2)

/-- Allocate a whole overlay document's action payloads. -/
def allocOverlay (o : Overlay) (s : Store) (n : Nat) :
    Option (List OverlayActionH) × Store × Nat :=
  match o.actions with
  | none => (none, s, n)
  | some l =>
      let r := allocActions l s n
      (some r.1, r.2.1, r.2.2)

theorem hvalHi_mono {B B' : Nat} (h : B ≤ B') {v : HVal} (hv : HValHi B' v) :
    HValHi B v :=
  fun a ha => Nat.le_trans h (hv a ha)

theorem allocActionPayload_facts (v : Option JsVal) (s : Store) (n : Nat) :
    n ≤ (allocActionPayload v s n).2.2 ∧
    (∀ a, a < n → (allocActionPayload v s n).2.1 a = s a) ∧
    (∀ h, (allocActionPayload v s n).1 = some h → HValHi n h) ∧
    (∀ B, HiClosed B s → B ≤ n → HiClosed B (allocActionPayload v s n).2.1) := by
  cases v with
  | none =>
      refine ⟨Nat.le_refl n, fun a _ => rfl, ?_, fun B hB _ => hB⟩
      intro h hh
      simp [allocActionPayload] at hh
  | some t =>
      obtain ⟨hle, hframe, hval, _⟩ := allocTree_spec t s n
      refine ⟨hle, fun a ha => hframe a (Or.inl ha), ?_, ?_⟩
      · intro h hh
        simp only [allocActionPayload, Option.some.injEq] at hh
        subst hh
        exact HValIn_hi hval
      · intro B hB hBn
        exact allocTree_hiClosed B t s n hB hBn

theorem allocAction_facts (a : OverlayAction) (s : Store) (n : Nat) :
    n ≤ (allocAction a s n).2.2 ∧
    (∀ x, x < n → (allocAction a s n).2.1 x = s x) ∧
    (∀ v, (allocAction a s n).1.update = some v → HValHi n v) ∧
    (∀ B, HiClosed B s → B ≤ n → HiClosed B (allocAction a s n).2.1) := by
  obtain ⟨hle1, hframe1, hval1, hcl1⟩ := allocActionPayload_facts a.update s n
  obtain ⟨hle2, hframe2, _, hcl2⟩ :=
    allocActionPayload_facts a.remove (allocActionPayload a.update s n).2.1
      (allocActionPayload a.update s n).2.2
  simp only [allocAction]
  refine ⟨Nat.le_trans hle1 hle2, ?_, ?_, ?_⟩
  · intro x hx
    rw [hframe2 x (Nat.lt_of_lt_of_le hx hle1), hframe1 x hx]
  · intro v hv
    exact hval1 v hv
  · intro B hB hBn
    exact hcl2 B (hcl1 B hB hBn) (Nat.le_trans hBn hle1)

theorem allocActions_facts :
    ∀ (l : List OverlayAction) (s : Store) (n : Nat),
      n ≤ (allocActions l s n).2.2 ∧
      (∀ x, x < n → (allocActions l s n).2.1 x = s x) ∧
      (∀ act ∈ (allocActions l s n).1, ∀ v, act.update = some v → HValHi n v) ∧
      (∀ B, HiClosed B s → B ≤ n → HiClosed B (allocActions l s n).2.1) := by
  intro l
  induction l with
  | nil =>
      intro s n
      exact ⟨Nat.le_refl n, fun x _ => rfl, by simp [allocActions], fun B hB _ => hB⟩
  | cons a t ih =>
      intro s n
      obtain ⟨hle1, hframe1, hval1, hcl1⟩ := allocAction_facts a s n
      obtain ⟨hle2, hframe2, hvals2, hcl2⟩ :=
        ih (allocAction a s n).2.1 (allocAction a s n).2.2
      simp only [allocActions]
      refine ⟨Nat.le_trans hle1 hle2, ?_, ?_, ?_⟩
      · intro x hx
        rw [hframe2 x (Nat.lt_of_lt_of_le hx hle1), hframe1 x hx]
      · intro act hact v hv
        rcases List.mem_cons.mp hact with he | htl
        · subst he
          exact hval1 v hv
        · exact hvalHi_mono hle1 (hvals2 act htl v hv)
      · intro B hB hBn
        exact hcl2 B (hcl1 B hB hBn) (Nat.le_trans hBn hle1)

theorem applyOverlayH_frame (B fuel : Nat) (s : Store) (next : Nat) (spec : HVal)
    (actions : Option (List OverlayActionH))
    (hs : HiClosed B s) (hn : B ≤ next)
    (hu : ∀ acts, actions = some acts →
      ∀ act ∈ acts, ∀ v, act.update = some v → HValHi B v) :
    ∀ a, a < B → (applyOverlayH fuel s next spec actions).1 a = s a := by
  intro a ha
  unfold applyOverlayH
  cases hread : readback fuel s spec with
  | none => rfl
  | some tree =>
      dsimp only
      obtain ⟨hle, hframe, hval, _⟩ := allocTree_spec tree s next
      have hclone : HiClosed B (allocTree tree s next).2.1 :=
        allocTree_hiClosed B tree s next hs hn
      have hframeB : (allocTree tree s next).2.1 a = s a :=
        hframe a (Or.inl (Nat.lt_of_lt_of_le ha hn))
      cases actions with
      | none => exact hframeB
      | some acts =>
          dsimp only
          have hfold := applyActionsH_frame B acts (allocTree tree s next).2.1
            (allocTree tree s next).2.2 (allocTree tree s next).1 []
            hclone (Nat.le_trans hn hle)
            (HValIn_hi hval |> hvalHi_mono hn)
            (hu acts rfl) a ha
          cases hres : applyActionsH (allocTree tree s next).2.1
              (allocTree tree s next).2.2 (allocTree tree s next).1 acts [] with
          | mk s' rest =>
              cases rest with
              | mk n' res =>
                  rw [hres] at hfold
                  dsimp only at hfold
                  cases res with
                  | ok ws =>
                      dsimp only
                      rw [hfold]
                      exact hframeB
                  | error e =>
                      dsimp only
                      rw [hfold]
                      exact hframeB

theorem hiClosed_of_empty_above (s : Store) (n : Nat)
    (h : ∀ a, n ≤ a → s a = none) : HiClosed n s := by
  intro a nd hB hnd
  rw [h a hB] at hnd
  cases hnd

theorem allocOverlay_facts (o : Overlay) (s : Store) (n : Nat) :
    n ≤ (allocOverlay o s n).2.2 ∧
    (∀ x, x < n → (allocOverlay o s n).2.1 x = s x) ∧
    (∀ acts, (allocOverlay o s n).1 = some acts →
      ∀ act ∈ acts, ∀ v, act.update = some v → HValHi n v) ∧
    (∀ B, HiClosed B s → B ≤ n → HiClosed B (allocOverlay o s n).2.1) := by
  cases ho : o.actions with
  | none =>
      simp only [allocOverlay, ho]
      refine ⟨Nat.le_refl n, fun x _ => trivial, ?_, fun B hB _ => hB⟩
      intro acts hacts
      cases hacts
  | some l =>
      obtain ⟨hle, hframe, hvals, hcl⟩ := allocActions_facts l s n
      simp only [allocOverlay, ho]
      refine ⟨hle, hframe, ?_, hcl⟩
      intro acts hacts
      cases hacts
      exact hvals

/-- C2 (amended). When the document and the overlay share no heap structure
— as when each is built by an independent parse, modelled here by
allocating the document from the empty store and the overlay's payload
values strictly above it — `applyOverlay` never observably mutates the
original document: after the call (whether it returns normally or throws),
reading the original root back from the final heap still yields exactly the
original document. The defensive deep clone confines every write of every
action kind to addresses outside the document's region. -/
theorem applyOverlay_no_mutation_of_disjoint_doc (d : JsVal) (o : Overlay)
    (fuel : Nat) :
    readback (heightJ d + 1)
      (applyOverlayH fuel
        (allocOverlay o (allocTree d emptyStore 0).2.1
          (allocTree d emptyStore 0).2.2).2.1
        (allocOverlay o (allocTree d emptyStore 0).2.1
          (allocTree d emptyStore 0).2.2).2.2
        (allocTree d emptyStore 0).1
        (allocOverlay o (allocTree d emptyStore 0).2.1
          (allocTree d emptyStore 0).2.2).1).1
      (allocTree d emptyStore 0).1
    = some d := by
  obtain ⟨hle, hframe, hval, hregion⟩ := allocTree_spec d emptyStore 0
  have hround := allocTree_readback d emptyStore 0
  obtain ⟨hle2, hframe2, hupd2, hcl2⟩ :=
    allocOverlay_facts o (allocTree d emptyStore 0).2.1 (allocTree d emptyStore 0).2.2
  have hclosed1 : HiClosed (allocTree d emptyStore 0).2.2 (allocTree d emptyStore 0).2.1 := by
    apply hiClosed_of_empty_above
    intro a hA
    rw [hframe a (Or.inr hA)]
    rfl
  have hcl2' : HiClosed (allocTree d emptyStore 0).2.2
      (allocOverlay o (allocTree d emptyStore 0).2.1
        (allocTree d emptyStore 0).2.2).2.1 :=
    hcl2 _ hclosed1 (Nat.le_refl _)
  have hframeApply := applyOverlayH_frame (allocTree d emptyStore 0).2.2 fuel
    (allocOverlay o (allocTree d emptyStore 0).2.1
      (allocTree d emptyStore 0).2.2).2.1
    (allocOverlay o (allocTree d emptyStore 0).2.1
      (allocTree d emptyStore 0).2.2).2.2
    (allocTree d emptyStore 0).1
    (allocOverlay o (allocTree d emptyStore 0).2.1
      (allocTree d emptyStore 0).2.2).1
    hcl2' hle2 hupd2
  have hagree : ∀ a, a < (allocTree d emptyStore 0).2.2 →
      (applyOverlayH fuel
        (allocOverlay o (allocTree d emptyStore 0).2.1
          (allocTree d emptyStore 0).2.2).2.1
        (allocOverlay o (allocTree d emptyStore 0).2.1
          (allocTree d emptyStore 0).2.2).2.2
        (allocTree d emptyStore 0).1
        (allocOverlay o (allocTree d emptyStore 0).2.1
          (allocTree d emptyStore 0).2.2).1).1 a
      = (allocTree d emptyStore 0).2.1 a := by
    intro a ha
    rw [hframeApply a ha, hframe2 a ha]
  rw [readback_region 0 (allocTree d emptyStore 0).2.2 (allocTree d emptyStore 0).2.1 _
    (fun a _ h2 => hagree a h2)
    (fun a h1 h2 nd hnd => by
      obtain ⟨nd', hnd', hin⟩ := hregion a h1 h2
      rw [hnd'] at hnd
      cases hnd
      exact hin)
    (heightJ d + 1) (allocTree d emptyStore 0).1 hval]
  exact hround

/-- A concrete heap in which the overlay shares structure with the
document: address 0 holds `{q: 1}`, reachable both from the document root
(address 1, as `root.x`) and from the overlay's first update payload
(address 3, as its `y`). -/
def heapAliasStore : Store := fun a =>
  if a = 0 then some (.objN [("q", .num 1)])
  else if a = 1 then some (.objN [("root", .ref 2)])
  else if a = 2 then some (.objN [("x", .ref 0)])
  else if a = 3 then some (.objN [("y", .ref 0)])
  else none

/-- The aliasing overlay: first merge `{y: <shared>}` into `root`, then
update `root.y.q` — which now traverses into the shared node. -/
def heapAliasActions : List OverlayActionH :=
  [⟨some "$.root", some (.ref 3), none, none, none⟩,
   ⟨some "$.root.y.q", some (.num 2), none, none, none⟩]

/-- C2 counterexample. With the overlay's update value aliasing a subobject
of the document, `applyOverlay` returns normally and yet observably mutates
the original document: the document read back before the call is
`{root: {x: {q: 1}}}` and after the call it is `{root: {x: {q: 2}}}`. The
deep clone copies the document but the first update stores the overlay's
value into the clone by reference, and the second action then writes
through it into structure shared with the original. -/
theorem applyOverlay_mutates_aliased_document :
    readback 10 heapAliasStore (.ref 1)
      = some (.obj [("root", .obj [("x", .obj [("q", .num 1)])])]) ∧
    (match (applyOverlayH 10 heapAliasStore 4 (.ref 1) (some heapAliasActions)).2.2 with
      | .ok _ => true
      | .error _ => false) = true ∧
    readback 10 (applyOverlayH 10 heapAliasStore 4 (.ref 1)
        (some heapAliasActions)).1 (.ref 1)
      = some (.obj [("root", .obj [("x", .obj [("q", .num 2)])])]) ∧
    (JsVal.obj [("root", .obj [("x", .obj [("q", .num 1)])])]
      ≠ .obj [("root", .obj [("x", .obj [("q", .num 2)])])]) := by
  refine ⟨by decide, by decide, by decide, by decide⟩
